import Mathlib

/-!
Verification development for the horizon repository.

The indexer crate's driving loop (`listen_blocks`, `main` in
src/indexer/src/main.rs) is embedded directly from the source.  The three
pipeline components it calls (`collect_transactions`, `filter_outcomes`,
`process_outcome`) live in the indexer library crate whose source is not part
of the reviewed tree; they are modelled from the specification (sections 4.2,
4.3 and 4.4) and are marked as such in their doc comments.

The API route helpers (`size_deserialize`, the duplicate-dropping
post-processing of `all_projects` in src/api/src/routes/data/projects.rs) and
the token contract hook (`before_transfer` in src/token/src/lib.rs) are
embedded from their sources.
-/

namespace Horizon

/-- Account identifiers are strings (NEAR account ids). -/
abbrev AccountId := String

/-- Receipt identifiers (CryptoHash values rendered as strings). -/
abbrev ReceiptId := String

/-- Transaction hashes (CryptoHash values rendered as strings). -/
abbrev TxHash := String

/-- Status of one execution outcome, from the spec's data model (section 3):
terminal success carrying a value, non-terminal success forwarding to a new
receipt, or terminal failure. -/
inductive ExecutionStatus where
  | finalValue (value : String)
  | forwardTo (newId : ReceiptId)
  | failed
deriving DecidableEq

/-- An action inside a receipt: a function call (method name plus
base64-encoded argument payload) or any other kind, which is ignored. -/
inductive Action where
  | functionCall (methodName : String) (argsB64 : String)
  | other
deriving DecidableEq

/-- The receipt payload carried by an execution outcome. -/
structure Receipt where
  receiver_id : AccountId
  actions : List Action
deriving DecidableEq

/-- One execution outcome: the receipt id it resolves, its status, and the
originating receipt payload. -/
structure ExecutionOutcome where
  receiptId : ReceiptId
  status : ExecutionStatus
  receipt : Receipt
deriving DecidableEq

/-- A transaction envelope: hash, signer, receiver, and the id of the single
receipt produced by converting the transaction (the seed receipt id). -/
structure TransactionEnvelope where
  txHash : TxHash
  signer_id : AccountId
  receiver_id : AccountId
  seedReceiptId : ReceiptId
deriving DecidableEq

/-- A shard: its transactions and its execution outcomes, both ordered. -/
structure Shard where
  transactions : List TransactionEnvelope
  outcomes : List ExecutionOutcome
deriving DecidableEq

/-- The block header part of a streamer message (height, hash, timestamp). -/
structure BlockHeader where
  height : Nat
  hash : String
  timestamp : Nat
deriving DecidableEq

/-- One streamer message: a block header plus the block's shards. -/
structure StreamerMessage where
  block : BlockHeader
  shards : List Shard
deriving DecidableEq

/-! ## The Correlation Map

`tx_receipt_ids` in the source is a `HashMap<ReceiptId, TxHash>`.  It is
modelled as an association list together with the usual hash-map operations:
lookup finds the entry for a key, insert replaces any entry with the same key,
remove deletes it, and extend folds insert over a list of pairs
(last-write-wins, as `HashMap::extend` does). -/

abbrev CorrelationMap := List (ReceiptId × TxHash)

/-- Hash-map lookup: the value of the entry whose key matches, if any. -/
def mapLookup (m : CorrelationMap) (k : ReceiptId) : Option TxHash :=
  (m.find? (fun p => p.1 == k)).map (fun p => p.2)

/-- Hash-map remove: drop every entry with the given key. -/
def mapRemove (m : CorrelationMap) (k : ReceiptId) : CorrelationMap :=
  m.filter (fun p => p.1 != k)

/-- Hash-map insert: replace any entry with the same key. -/
def mapInsert (m : CorrelationMap) (k : ReceiptId) (v : TxHash) : CorrelationMap :=
  (k, v) :: mapRemove m k

/-- Hash-map extend: insert every pair, later pairs winning on key clashes. -/
def mapExtend (m : CorrelationMap) (ps : List (ReceiptId × TxHash)) : CorrelationMap :=
  ps.foldl (fun acc p => mapInsert acc p.1 p.2) m

/-- The key-uniqueness invariant of the Correlation Map: no receipt id appears
twice.  For a genuine hash map this is structural; for the association-list
model it must be preserved by every operation. -/
def KeysNodup (m : CorrelationMap) : Prop := (m.map Prod.fst).Nodup

/-! ## Seeder -/

/-- Modelled from the spec: the Seeder `collect_transactions` (section 4.2).
For every transaction envelope in every shard whose receiver account id is in
the watchlist, produce the pair (seed receipt id, transaction hash).  The
source of the indexer library crate is not in the reviewed tree. -/
def collect_transactions (msg : StreamerMessage) (watching_list : List AccountId) :
    List (ReceiptId × TxHash) :=
  msg.shards.flatMap (fun sh =>
    sh.transactions.filterMap (fun t =>
      if watching_list.contains t.receiver_id then some (t.seedReceiptId, t.txHash)
      else none))

/-! ## Outcome Filter -/

/-- One step of the Outcome Filter over a single execution outcome, from the
spec (section 4.3): untracked receipt ids are ignored; otherwise the entry is
removed and, on `ForwardTo`, re-inserted under the new id (nothing emitted),
on `FinalValue` the pair (outcome, transaction hash) is emitted, and on
`Failed` nothing is emitted. -/
def outcomeStep (st : CorrelationMap × List (ExecutionOutcome × TxHash))
    (o : ExecutionOutcome) : CorrelationMap × List (ExecutionOutcome × TxHash) :=
  match mapLookup st.1 o.receiptId with
  | none => st
  | some txHash =>
    match o.status with
    | ExecutionStatus.forwardTo newId =>
        (mapInsert (mapRemove st.1 o.receiptId) newId txHash, st.2)
    | ExecutionStatus.finalValue _ =>
        (mapRemove st.1 o.receiptId, st.2 ++ [(o, txHash)])
    | ExecutionStatus.failed =>
        (mapRemove st.1 o.receiptId, st.2)

/-- The outcomes of a block in shard-then-position order. -/
def blockOutcomes (msg : StreamerMessage) : List ExecutionOutcome :=
  msg.shards.flatMap (fun sh => sh.outcomes)

/-- Modelled from the spec: the Outcome Filter `filter_outcomes`
(section 4.3).  Runs `outcomeStep` over every execution outcome of the block
in shard-then-outcome iteration order, returning the mutated Correlation Map
and the emitted (outcome, transaction hash) pairs in iteration order.  The
source of the indexer library crate is not in the reviewed tree. -/
def filter_outcomes (msg : StreamerMessage) (m : CorrelationMap) :
    CorrelationMap × List (ExecutionOutcome × TxHash) :=
  (blockOutcomes msg).foldl outcomeStep (m, [])

/-! ## Outcome Decoder: base64 and JSON

`process_outcome` base64-decodes each function-call action's argument payload
and parses the result as a JSON object.  Both codecs are implemented
concretely so that the pipeline is executable on closed inputs. -/

/-- The base64 engine value built in `listen_blocks`
(`base64::engine::general_purpose::STANDARD`): the standard alphabet with
mandatory canonical padding. -/
structure Base64Engine where
  padded : Bool
deriving DecidableEq

/-- The `STANDARD` general-purpose engine. -/
def standardEngine : Base64Engine := Base64Engine.mk true

/-- Value of one character of the standard base64 alphabet. -/
def b64Val (c : Char) : Option Nat :=
  if 'A' ≤ c ∧ c ≤ 'Z' then some (c.toNat - 65)
  else if 'a' ≤ c ∧ c ≤ 'z' then some (c.toNat - 71)
  else if '0' ≤ c ∧ c ≤ '9' then some (c.toNat + 4)
  else if c = '+' then some 62
  else if c = '/' then some 63
  else none

/-- Decode base64 text four characters at a time, requiring canonical padding
(the decode mode of the `STANDARD` engine). -/
def b64Quads : List Char → Option (List Nat)
  | [] => some []
  | a :: b :: c :: d :: rest => do
    let va ← b64Val a
    let vb ← b64Val b
    if c = '=' then
      if d = '=' ∧ rest = [] ∧ vb % 16 = 0 then some [va * 4 + vb / 16] else none
    else do
      let vc ← b64Val c
      if d = '=' then
        if rest = [] ∧ vc % 4 = 0 then
          some [va * 4 + vb / 16, (vb % 16) * 16 + vc / 4]
        else none
      else do
        let vd ← b64Val d
        let tl ← b64Quads rest
        some ((va * 4 + vb / 16) :: ((vb % 16) * 16 + vc / 4) :: ((vc % 4) * 64 + vd) :: tl)
  | _ => none

/-- Modelled from the spec: base64 decoding of an argument payload with the
`STANDARD` engine (only the padded standard engine is modelled). -/
def base64Decode (engine : Base64Engine) (s : String) : Option (List Nat) :=
  if engine.padded then b64Quads s.data else none

/-- A JSON value.  Numbers keep their lexeme; strings keep their raw bytes. -/
inductive Json where
  | jnull
  | jbool (b : Bool)
  | jnum (lexeme : List Nat)
  | jstr (bytes : List Nat)
  | jarr (items : List Json)
  | jobj (fields : List (List Nat × Json))

/-- Whitespace bytes of JSON. -/
def jsonWs (b : Nat) : Bool := b == 32 || b == 9 || b == 10 || b == 13

/-- ASCII digit bytes. -/
def jsonDigit (b : Nat) : Bool := decide (48 ≤ b ∧ b ≤ 57)

/-- Bytes that may appear in a JSON number lexeme. -/
def jsonNumByte (b : Nat) : Bool :=
  jsonDigit b || b == 45 || b == 43 || b == 46 || b == 101 || b == 69

/-- Parse the body of a JSON string after its opening quote; escape pairs are
kept raw.  Returns the string's bytes and the remaining input. -/
def parseJString : List Nat → Option (List Nat × List Nat)
  | [] => none
  | 34 :: rest => some ([], rest)
  | 92 :: c :: rest => (parseJString rest).map (fun r => (92 :: c :: r.1, r.2))
  | c :: rest => (parseJString rest).map (fun r => (c :: r.1, r.2))

/-- Parse a JSON number lexeme at the head of the input. -/
def parseJNumber (bs : List Nat) : Option (Json × List Nat) :=
  let lex := bs.takeWhile jsonNumByte
  let headOk := match lex with
    | [] => false
    | b :: _ => jsonDigit b || b == 45
  if headOk && lex.any jsonDigit then some (Json.jnum lex, bs.drop lex.length)
  else none

mutual

/-- Fuel-bounded recursive-descent parse of one JSON value. -/
def parseJValue : Nat → List Nat → Option (Json × List Nat)
  | 0, _ => none
  | fuel + 1, bs =>
    match bs.dropWhile jsonWs with
    | 110 :: 117 :: 108 :: 108 :: rest => some (Json.jnull, rest)
    | 116 :: 114 :: 117 :: 101 :: rest => some (Json.jbool true, rest)
    | 102 :: 97 :: 108 :: 115 :: 101 :: rest => some (Json.jbool false, rest)
    | 34 :: rest => (parseJString rest).map (fun r => (Json.jstr r.1, r.2))
    | 91 :: rest => parseJArrayItems fuel (rest.dropWhile jsonWs) true
    | 123 :: rest => parseJObjectItems fuel (rest.dropWhile jsonWs) true
    | other => parseJNumber other

/-- Fuel-bounded parse of array items; the flag marks the position right after
the opening bracket, where an immediate closing bracket is allowed. -/
def parseJArrayItems : Nat → List Nat → Bool → Option (Json × List Nat)
  | 0, _, _ => none
  | fuel + 1, bs, first =>
    match bs with
    | 93 :: rest => if first then some (Json.jarr [], rest) else none
    | _ => do
      let r1 ← parseJValue fuel bs
      match r1.2.dropWhile jsonWs with
      | 44 :: r3 => do
          let r4 ← parseJArrayItems fuel (r3.dropWhile jsonWs) false
          match r4.1 with
          | Json.jarr xs => some (Json.jarr (r1.1 :: xs), r4.2)
          | _ => none
      | 93 :: r3 => some (Json.jarr [r1.1], r3)
      | _ => none

/-- Fuel-bounded parse of object fields; the flag marks the position right
after the opening brace, where an immediate closing brace is allowed. -/
def parseJObjectItems : Nat → List Nat → Bool → Option (Json × List Nat)
  | 0, _, _ => none
  | fuel + 1, bs, first =>
    match bs with
    | 125 :: rest => if first then some (Json.jobj [], rest) else none
    | 34 :: rest => do
      let rk ← parseJString rest
      match rk.2.dropWhile jsonWs with
      | 58 :: r2 => do
        let rv ← parseJValue fuel (r2.dropWhile jsonWs)
        match rv.2.dropWhile jsonWs with
        | 44 :: r4 => do
          let rt ← parseJObjectItems fuel (r4.dropWhile jsonWs) false
          match rt.1 with
          | Json.jobj fs => some (Json.jobj ((rk.1, rv.1) :: fs), rt.2)
          | _ => none
        | 125 :: r4 => some (Json.jobj [(rk.1, rv.1)], r4)
        | _ => none
      | _ => none
    | _ => none

end

/-- Parse a whole byte sequence as a JSON object: one value, trailing
whitespace only, and the value must be an object. -/
def parseJsonObject (bs : List Nat) : Option Json :=
  match parseJValue (bs.length + 1) bs with
  | some (v, rest) =>
    if rest.dropWhile jsonWs = [] then
      match v with
      | Json.jobj fs => some (Json.jobj fs)
      | _ => none
    else none
  | none => none

/-- Modelled from the spec: decode one function-call action's argument payload
(section 4.4): base64-decode, then parse the bytes as a JSON object; any
failure makes the action contribute no record. -/
def decodeArgs (engine : Base64Engine) (argsB64 : String) : Option Json := do
  let bytes ← base64Decode engine argsB64
  parseJsonObject bytes

/-- The persisted unit: transaction hash, receiver account id, method name,
decoded argument object, block timestamp. -/
structure CallRecord where
  transaction_hash : TxHash
  receiver_id : AccountId
  method_name : String
  args : Json
  timestamp : Nat

/-- Modelled from the spec: the Outcome Decoder `process_outcome`
(section 4.4).  For each function-call action of the outcome's receipt, in
position order, decode its arguments; each success yields one Call Record,
each failure or non-function-call action yields none.  The source of the
indexer library crate is not in the reviewed tree. -/
def process_outcome (outcome : ExecutionOutcome) (txHash : TxHash)
    (engine : Base64Engine) (block : BlockHeader) : List CallRecord :=
  outcome.receipt.actions.filterMap (fun a =>
    match a with
    | Action.functionCall methodName argsB64 =>
      (decodeArgs engine argsB64).map (fun j =>
        CallRecord.mk txHash outcome.receipt.receiver_id methodName j block.timestamp)
    | Action.other => none)

/-- Split a character list at every occurrence of a separator, like Rust's
`str::split` on a single character: `n` separators yield `n + 1` pieces, so
the result is never empty. -/
def splitOnChar (sep : Char) : List Char → List (List Char)
  | [] => [[]]
  | c :: rest =>
    match splitOnChar sep rest with
    | [] => [[]]
    | t :: ts => if c = sep then [] :: t :: ts else (c :: t) :: ts

/-! ## The driving loop (src/indexer/src/main.rs, `listen_blocks` and `main`)

The loop state carries exactly what the Rust function has in scope across
iterations: the mutable Correlation Map `tx_receipt_ids`, the `watching_list`
parameter, the base64 `engine` local, and the database `pool` handle (the
handle itself, not the store contents).  The Sink (`tx.insert(&pool)`) is
modelled by a predicate saying which records the store accepts; the loop stops
fatally at the first rejected record, exactly as `.expect` panics. -/

structure ListenState where
  tx_receipt_ids : CorrelationMap
  watching_list : List AccountId
  engine : Base64Engine
  pool : Nat

/-- The external Sink: whether inserting a given record succeeds. -/
structure SinkModel where
  ok : CallRecord → Bool

/-- Everything one iteration of the loop body computes before touching the
Sink: the Seeder output, the Outcome Filter emissions, the next loop state,
and the decoded Call Records of the block (`txs` in the source, fully
collected before the first insert). -/
structure BlockResult where
  seedPairs : List (ReceiptId × TxHash)
  emitted : List (ExecutionOutcome × TxHash)
  next : ListenState
  records : List CallRecord

/-- The pure per-block pipeline of the loop body: extend the Correlation Map
with the Seeder output, run the Outcome Filter, then decode every emitted pair
in emission order (`flat_map ... collect_vec` in the source). -/
def blockPipeline (s : ListenState) (msg : StreamerMessage) : BlockResult :=
  let pairs := collect_transactions msg s.watching_list
  let m1 := mapExtend s.tx_receipt_ids pairs
  let fo := filter_outcomes msg m1
  BlockResult.mk pairs fo.2
    (ListenState.mk fo.1 s.watching_list s.engine s.pool)
    (fo.2.flatMap (fun p => process_outcome p.1 p.2 s.engine msg.block))

/-- The state-and-records view of one iteration. -/
def stepBlock (s : ListenState) (msg : StreamerMessage) : ListenState × List CallRecord :=
  ((blockPipeline s msg).next, (blockPipeline s msg).records)

/-- The loop state after processing a list of blocks (ignoring the Sink). -/
def pipelineState (s : ListenState) (msgs : List StreamerMessage) : ListenState :=
  msgs.foldl (fun acc msg => (stepBlock acc msg).1) s

/-- All Call Records the pipeline produces over a list of blocks, in order. -/
def pipelineRecords (s : ListenState) : List StreamerMessage → List CallRecord
  | [] => []
  | msg :: rest => (stepBlock s msg).2 ++ pipelineRecords (stepBlock s msg).1 rest

/-- The per-block emission lists of the pipeline over a list of blocks. -/
def pipeEmits (w : List AccountId) (m : CorrelationMap) :
    List StreamerMessage → List (List (ExecutionOutcome × TxHash))
  | [] => []
  | b :: rest =>
    let fo := filter_outcomes b (mapExtend m (collect_transactions b w))
    fo.2 :: pipeEmits w fo.1 rest

/-- Observable events of the driving loop, in the order the source performs
them: the Seeder run (recording the watchlist it consulted), the Outcome
Filter run, one decode per emitted pair, then one Sink write per record. -/
inductive Event where
  | seeded (watchlist : List AccountId) (pairs : List (ReceiptId × TxHash))
  | filtered (pairs : List (ExecutionOutcome × TxHash))
  | decoded (pair : ExecutionOutcome × TxHash) (recs : List CallRecord)
  | wrote (r : CallRecord)
  | insertFailed (r : CallRecord)

/-- Sequential Sink writes of a block's records (`for tx in txs { tx.insert
... .expect }`): one write event per record, stopping at the first failure.
Returns the events, the successfully inserted records, and the failing record
if any. -/
def writeRecords (sink : SinkModel) :
    List CallRecord → List Event × List CallRecord × Option CallRecord
  | [] => ([], [], none)
  | r :: rest =>
    if sink.ok r then
      let w := writeRecords sink rest
      (Event.wrote r :: w.1, r :: w.2.1, w.2.2)
    else ([Event.insertFailed r], [], some r)

/-- The driving loop `listen_blocks`, embedded from the source with an event
trace: while the stream yields blocks, run the per-block pipeline, then insert
every record one at a time; a failed insert is fatal (`.expect` panics),
carrying the store contents at that point; stream end returns normally. -/
def listen_blocks (sink : SinkModel) (s : ListenState) (db : List CallRecord) :
    List StreamerMessage →
    List Event × Except (List CallRecord × CallRecord) (ListenState × List CallRecord)
  | [] => ([], Except.ok (s, db))
  | msg :: rest =>
    let br := blockPipeline s msg
    let decodes := br.emitted.map (fun p =>
      Event.decoded p (process_outcome p.1 p.2 s.engine msg.block))
    let w := writeRecords sink br.records
    let blockEvs := Event.seeded s.watching_list br.seedPairs ::
      Event.filtered br.emitted :: decodes ++ w.1
    match w.2.2 with
    | some r => (blockEvs, Except.error (db ++ w.2.1, r))
    | none =>
      let next := listen_blocks sink br.next (db ++ w.2.1) rest
      (blockEvs ++ next.1, next.2)

/-- The watchlist built once in `main` from the `--accounts` option: the
comma-separated account ids. -/
def parseWatchlist (accounts : String) : List AccountId :=
  (splitOnChar ',' accounts.data).map (fun cs => String.mk cs)

/-- The loop state `main` starts `listen_blocks` with: empty Correlation Map,
the parsed watchlist, the standard base64 engine, the connected pool handle. -/
def startState (accounts : String) : ListenState :=
  ListenState.mk [] (parseWatchlist accounts) standardEngine 0

/-- The tail of `main`: run `listen_blocks` and return `Ok(())`; a fatal loop
condition terminates the process instead. -/
def main_model (sink : SinkModel) (accounts : String) (msgs : List StreamerMessage) :
    Except (List CallRecord × CallRecord) Unit :=
  match (listen_blocks sink (startState accounts) [] msgs).2 with
  | Except.ok _ => Except.ok ()
  | Except.error e => Except.error e

/-! ## Event classifiers used by the ordering statements -/

/-- Whether an event is a Sink interaction (a write or a failed write). -/
def isWriteEvent : Event → Bool
  | Event.wrote _ => true
  | Event.insertFailed _ => true
  | _ => false

/-- The record a successful write event carries. -/
def writtenRecs : Event → List CallRecord
  | Event.wrote r => [r]
  | _ => []

/-! ## Hypothesis language for the forward-chain claim -/

/-- The loop invariant of the forward-chain argument, relative to a tracked
transaction hash: the Correlation Map holds exactly one entry carrying the
hash — under the current chain receipt id — and none of the future chain
receipt ids is a key yet. -/
def ChainInv (h : TxHash) (k : ReceiptId) (future : List ReceiptId)
    (m : CorrelationMap) : Prop :=
  m.filter (fun p => p.2 == h) = [(k, h)] ∧ mapLookup m k = some h ∧
  ∀ r ∈ future, mapLookup m r = none

/-- After the terminal resolution: no Correlation Map entry carries the
tracked hash any more. -/
def NoTracked (h : TxHash) (m : CorrelationMap) : Prop :=
  m.filter (fun p => p.2 == h) = []

/-- The outcomes of a list avoid a set of protected receipt ids: none of them
resolves a protected receipt and none forwards execution into one. -/
def othersOk (ks : List ReceiptId) (os : List ExecutionOutcome) : Prop :=
  ∀ o ∈ os, o.receiptId ∉ ks ∧ ∀ t, o.status = ExecutionStatus.forwardTo t → t ∉ ks

/-- The Seeder output of a block avoids the tracked transaction hash and the
protected receipt ids. -/
def seedOk (w : List AccountId) (h : TxHash) (ks : List ReceiptId)
    (b : StreamerMessage) : Prop :=
  ∀ p ∈ collect_transactions b w, p.2 ≠ h ∧ p.1 ∉ ks

/-- A forward chain fits a block sequence: block `i` resolves chain receipt
`i` — forwarding to receipt `i+1` for all but the last block, finalizing in
the last — while every other outcome and every Seeder pair of these blocks
stays clear of the remaining chain receipts and of the tracked hash. -/
def ChainFits (w : List AccountId) (h : TxHash) :
    List ReceiptId → List StreamerMessage → Prop
  | [k], [b] =>
      seedOk w h [k] b ∧
      ∃ pre o post v, blockOutcomes b = pre ++ o :: post ∧
        o.receiptId = k ∧ o.status = ExecutionStatus.finalValue v ∧
        othersOk [k] (pre ++ post)
  | k :: k2 :: ks, b :: bs =>
      seedOk w h (k :: k2 :: ks) b ∧
      (∃ pre o post, blockOutcomes b = pre ++ o :: post ∧
        o.receiptId = k ∧ o.status = ExecutionStatus.forwardTo k2 ∧
        othersOk (k :: k2 :: ks) (pre ++ post)) ∧
      ChainFits w h (k2 :: ks) bs
  | _, _ => False

/-! ## The size range deserializer (src/api/src/routes/data/projects.rs) -/

/-- Digit accumulation of `u32::from_str`: each step multiplies by ten and
adds the digit, failing on a non-digit or on overflow past `2 ^ 32 - 1`. -/
def parseU32Loop : Nat → List Char → Option Nat
  | acc, [] => some acc
  | acc, c :: rest =>
    if 48 ≤ c.toNat ∧ c.toNat ≤ 57 then
      let v := acc * 10 + (c.toNat - 48)
      if v < 4294967296 then parseU32Loop v rest else none
    else none

/-- Rust's `str::parse::<u32>`: an optional leading plus sign, then one or
more decimal digits, value below `2 ^ 32`. -/
def parseU32 : List Char → Option Nat
  | [] => none
  | '+' :: rest => if rest = [] then none else parseU32Loop 0 rest
  | cs => parseU32Loop 0 cs

/-- One token of `size_deserialize`, translated from the source: split the
token on every dash, return `None` when the dead guard fires (it never does:
the parts are never empty), otherwise parse the first part and the last part
as `u32` and keep the pair when `from <= to`. -/
def sizeToken (range : List Char) : Option (Nat × Nat) :=
  let parts := splitOnChar '-' range
  if parts = [] ∧ parts.length ≠ 2 then none
  else
    match parts.head?, parts.getLast? with
    | some a, some b =>
      match parseU32 a, parseU32 b with
      | some f, some t => if f > t then none else some (f, t)
      | _, _ => none
    | _, _ => none

/-- `size_deserialize`, translated from the source (the deserialized query
string is the input; the function itself never errors): empty input yields
`None`, otherwise the comma-separated tokens are parsed and the failures
silently dropped. -/
def size_deserialize (s : List Char) : Option (List (Nat × Nat)) :=
  if s = [] then none
  else some ((splitOnChar ',' s).filterMap sizeToken)

/-- The claim's reading of one token: the substring before the token's first
dash must parse as a `u32` lower bound, the substring after its last dash must
parse as a `u32` upper bound, and the pair is kept when the bounds are
ordered.  A token without a dash is its own before-and-after substring. -/
def sizeTokenSpec (range : List Char) : Option (Nat × Nat) :=
  let before := range.takeWhile (fun c => c != '-')
  let after := (range.reverse.takeWhile (fun c => c != '-')).reverse
  match parseU32 before, parseU32 after with
  | some f, some t => if f ≤ t then some (f, t) else none
  | _, _ => none

/-- The claim's reading of the whole deserializer. -/
def sizeSpec (s : List Char) : Option (List (Nat × Nat)) :=
  if s = [] then none
  else some ((splitOnChar ',' s).filterMap sizeTokenSpec)

/-! ## The token contract hook (src/token/src/lib.rs) -/

/-- The NEP-141 transfer data the hook inspects. -/
structure Nep141Transfer where
  sender_id : AccountId
  receiver_id : AccountId
  amount : Nat
deriving DecidableEq

/-- The token contract state the hook touches: the allowlist and the token
balances (the other fields play no part in the hook). -/
structure TokenState where
  allowlist : List AccountId
  balances : List (AccountId × Nat)
deriving DecidableEq

/-- Balance lookup with the standard zero default. -/
def getBalance (bal : List (AccountId × Nat)) (a : AccountId) : Nat :=
  match bal.find? (fun p => p.1 == a) with
  | some p => p.2
  | none => 0

/-- Balance update. -/
def setBalance (bal : List (AccountId × Nat)) (a : AccountId) (n : Nat) :
    List (AccountId × Nat) :=
  (a, n) :: bal.filter (fun p => p.1 != a)

/-- The `before_transfer` hook, embedded from the source: `require!` the
sender is allowlisted (else panic with `ERR_SENDER_NOT_REGISTERED`), then
`require!` the receiver is allowlisted (else panic with
`ERR_RECEIVER_NOT_REGISTERED`); a panic is an error that aborts the transfer.
-/
def before_transfer (s : TokenState) (t : Nep141Transfer) : Except String Unit :=
  if s.allowlist.contains t.sender_id then
    if s.allowlist.contains t.receiver_id then Except.ok ()
    else Except.error "ERR_RECEIVER_NOT_REGISTERED"
  else Except.error "ERR_SENDER_NOT_REGISTERED"

/-- The NEP-141 transfer flow of the contract-tools library the contract
derives: run the `before_transfer` hook, then move the amount from sender to
receiver (panicking on insufficient balance); any panic aborts the whole
call.  The hook body is the repository's code; the surrounding flow is the
standard's. -/
def ft_transfer (s : TokenState) (t : Nep141Transfer) : Except String TokenState :=
  match before_transfer s t with
  | Except.error e => Except.error e
  | Except.ok _ =>
    let sb := getBalance s.balances t.sender_id
    if sb < t.amount then Except.error "ERR_INSUFFICIENT_BALANCE"
    else
      let afterWithdraw := setBalance s.balances t.sender_id (sb - t.amount)
      Except.ok (TokenState.mk s.allowlist
        (setBalance afterWithdraw t.receiver_id
          (getBalance afterWithdraw t.receiver_id + t.amount)))

/-- The state the chain persists after a contract call: the new state on
success, the unchanged old state when the call panicked (NEAR rolls back all
state mutations of a panicking call). -/
def persistedState (s : TokenState) (r : Except String TokenState) : TokenState :=
  match r with
  | Except.ok s2 => s2
  | Except.error _ => s

/-! ## The `all_projects` duplicate-dropping post-processing
(src/api/src/routes/data/projects.rs) -/

/-- The post-processing of the fetched rows, embedded from the source: a
`seen` set starts empty and each id is kept exactly when it is not yet in
`seen`, being added to `seen` as it is kept. -/
def dedupRows (seen : List String) : List String → List String
  | [] => []
  | id :: rest =>
    if seen.contains id then dedupRows seen rest
    else id :: dedupRows (id :: seen) rest

/-- The claim's reading: keep the first occurrence of each id in row order and
drop every later duplicate. -/
def firstOccurrences : List String → List String
  | [] => []
  | x :: rest => x :: firstOccurrences (rest.filter (fun y => y != x))
termination_by l => l.length
decreasing_by
  simp only [List.length_cons]
  exact Nat.lt_succ_of_le (List.length_filter_le _ _)

/-! ## Concrete inputs used by the witness statements -/

/-- A function-call action whose arguments decode to the empty JSON object
(the payload is the base64 encoding of two bytes, an opening and a closing
brace). -/
def sampleAct : Action := Action.functionCall "add_project" "e30="

/-- A terminal outcome for receipt `R1`, addressed to the watched account. -/
def sampleOutc : ExecutionOutcome :=
  ExecutionOutcome.mk "R1" (ExecutionStatus.finalValue "")
    (Receipt.mk "alice.test" [sampleAct])

/-- A watched transaction whose seed receipt is `R1`. -/
def sampleTx : TransactionEnvelope :=
  TransactionEnvelope.mk "T1" "bob.test" "alice.test" "R1"

/-- A block that seeds and terminally resolves one watched transaction. -/
def sampleMsg : StreamerMessage :=
  StreamerMessage.mk (BlockHeader.mk 100 "h100" 42)
    [Shard.mk [sampleTx] [sampleOutc]]

/-- The single Call Record the sample block produces. -/
def sampleRec : CallRecord :=
  CallRecord.mk "T1" "alice.test" "add_project" (Json.jobj []) 42

/-- A Sink accepting every record. -/
def okSink : SinkModel := SinkModel.mk (fun _ => true)

/-- A Sink rejecting every record. -/
def failSink : SinkModel := SinkModel.mk (fun _ => false)

/-- A block with no transactions and no outcomes. -/
def emptyMsg : StreamerMessage := StreamerMessage.mk (BlockHeader.mk 7 "h7" 9) []

/-- A block whose only outcome forwards receipt `R1` to receipt `R2`. -/
def chainMsg1 : StreamerMessage :=
  StreamerMessage.mk (BlockHeader.mk 100 "h100" 41)
    [Shard.mk [] [ExecutionOutcome.mk "R1" (ExecutionStatus.forwardTo "R2")
      (Receipt.mk "alice.test" [])]]

/-- The terminal outcome of the two-block chain, resolving receipt `R2`. -/
def chainOutc2 : ExecutionOutcome :=
  ExecutionOutcome.mk "R2" (ExecutionStatus.finalValue "ok")
    (Receipt.mk "alice.test" [])

/-- A block whose only outcome terminally resolves receipt `R2`. -/
def chainMsg2 : StreamerMessage :=
  StreamerMessage.mk (BlockHeader.mk 101 "h101" 43) [Shard.mk [] [chainOutc2]]

/-! # Theorems -/

/-! ## C10: duplicate-dropping in `all_projects` -/

theorem dedupRows_eq_firstOccurrences (rows : List String) :
    ∀ seen, dedupRows seen rows = firstOccurrences (rows.filter (fun y => !seen.contains y)) := by
  induction rows with
  | nil => intro seen; simp [dedupRows, firstOccurrences]
  | cons id rest ih =>
    intro seen
    cases hc : seen.contains id with
    | true =>
      simp only [dedupRows, hc, if_pos, List.filter_cons, Bool.not_true, ite_false]
      exact ih seen
    | false =>
      simp only [dedupRows, hc, List.filter_cons, Bool.not_false, ite_true, Bool.false_eq_true,
        if_false]
      rw [firstOccurrences, ih (id :: seen)]
      congr 1
      rw [List.filter_filter]
      congr 1
      apply List.filter_congr
      intro y _
      by_cases h : y = id
      · subst h; simp [List.contains_cons]
      · simp [List.contains_cons, h, Bool.not_or, bne, Bool.and_comm]

theorem firstOccurrences_props :
    ∀ (n : Nat) (l : List String), l.length ≤ n →
      (firstOccurrences l).Nodup ∧ List.Sublist (firstOccurrences l) l := by
  intro n
  induction n with
  | zero =>
    intro l hl
    have : l = [] := List.eq_nil_of_length_eq_zero (Nat.le_zero.mp hl)
    subst this
    simp [firstOccurrences]
  | succ n ih =>
    intro l hl
    cases l with
    | nil => simp [firstOccurrences]
    | cons x rest =>
      rw [firstOccurrences]
      have hrest : rest.length ≤ n := Nat.le_of_succ_le_succ hl
      have hfl : (rest.filter (fun y => y != x)).length ≤ n :=
        Nat.le_trans (List.length_filter_le _ _) hrest
      obtain ⟨hnd, hsub⟩ := ih _ hfl
      refine ⟨List.Nodup.cons ?_ hnd, ?_⟩
      · intro hx
        have hmem := hsub.subset hx
        rw [List.mem_filter] at hmem
        simp at hmem
      · exact List.Sublist.cons₂ x (hsub.trans (List.filter_sublist rest))

/-- C10: the post-processing of `all_projects` keeps exactly the first
occurrence of each project id in row order, dropping all later duplicates;
the result holds each id at most once and preserves the relative order of the
kept rows. -/
theorem all_projects_dedup (rows : List String) :
    dedupRows [] rows = firstOccurrences rows ∧
    (dedupRows [] rows).Nodup ∧ List.Sublist (dedupRows [] rows) rows := by
  have he : dedupRows [] rows = firstOccurrences rows := by
    rw [dedupRows_eq_firstOccurrences rows []]
    congr 1
    simp
  obtain ⟨hnd, hsub⟩ := firstOccurrences_props rows.length rows (Nat.le_refl _)
  exact ⟨he, he ▸ hnd, he ▸ hsub⟩

/-! ## C9: the `before_transfer` allowlist guards -/

/-- C9: whenever the sender or the receiver of a NEP-141 transfer is not on
the allowlist, the `before_transfer` hook panics with
`ERR_SENDER_NOT_REGISTERED` or `ERR_RECEIVER_NOT_REGISTERED`, the transfer
aborts with that panic, and the persisted balances are unchanged; hence a
transfer can only complete when both accounts are allowlisted. -/
theorem before_transfer_guards (s : TokenState) (t : Nep141Transfer)
    (hmiss : t.sender_id ∉ s.allowlist ∨ t.receiver_id ∉ s.allowlist) :
    ∃ e, before_transfer s t = Except.error e ∧
      (e = "ERR_SENDER_NOT_REGISTERED" ∨ e = "ERR_RECEIVER_NOT_REGISTERED") ∧
      ft_transfer s t = Except.error e ∧
      persistedState s (ft_transfer s t) = s := by
  by_cases hs : t.sender_id ∈ s.allowlist
  · have hr : t.receiver_id ∉ s.allowlist := by
      rcases hmiss with hm | hm
      · exact absurd hs hm
      · exact hm
    refine ⟨"ERR_RECEIVER_NOT_REGISTERED", ?_, Or.inr rfl, ?_, ?_⟩
    · simp [before_transfer, hs, hr]
    · simp [ft_transfer, before_transfer, hs, hr]
    · simp [persistedState, ft_transfer, before_transfer, hs, hr]
  · refine ⟨"ERR_SENDER_NOT_REGISTERED", ?_, Or.inl rfl, ?_, ?_⟩
    · simp [before_transfer, hs]
    · simp [ft_transfer, before_transfer, hs]
    · simp [persistedState, ft_transfer, before_transfer, hs]

/-- Witness for C9: a transfer from a non-allowlisted sender aborts and
leaves the state unchanged. -/
theorem before_transfer_guards_witness :
    ∃ e, before_transfer (TokenState.mk ["owner.near"] [("owner.near", 100)])
        (Nep141Transfer.mk "alice.near" "owner.near" 5) = Except.error e ∧
      (e = "ERR_SENDER_NOT_REGISTERED" ∨ e = "ERR_RECEIVER_NOT_REGISTERED") ∧
      ft_transfer (TokenState.mk ["owner.near"] [("owner.near", 100)])
        (Nep141Transfer.mk "alice.near" "owner.near" 5) = Except.error e ∧
      persistedState (TokenState.mk ["owner.near"] [("owner.near", 100)])
        (ft_transfer (TokenState.mk ["owner.near"] [("owner.near", 100)])
          (Nep141Transfer.mk "alice.near" "owner.near" 5)) =
        TokenState.mk ["owner.near"] [("owner.near", 100)] :=
  before_transfer_guards _ _ (Or.inl (by decide))

/-! ## C8: the size range deserializer -/

theorem splitOnChar_ne_nil (sep : Char) (cs : List Char) : splitOnChar sep cs ≠ [] := by
  cases cs with
  | nil => simp [splitOnChar]
  | cons c rest =>
    rw [splitOnChar]
    cases h : splitOnChar sep rest with
    | nil => simp
    | cons t ts => by_cases hc : c = sep <;> simp [hc]

theorem splitOnChar_head (sep : Char) (cs : List Char) :
    (splitOnChar sep cs).head? = some (cs.takeWhile (fun y => y != sep)) := by
  induction cs with
  | nil => simp [splitOnChar]
  | cons c rest ih =>
    rw [splitOnChar]
    cases h : splitOnChar sep rest with
    | nil => exact absurd h (splitOnChar_ne_nil sep rest)
    | cons t ts =>
      rw [h] at ih
      by_cases hc : c = sep
      · simp [hc, List.takeWhile_cons]
      · simp only [hc, ite_false, List.head?_cons, Option.some.injEq] at ih ⊢
        simp [List.takeWhile_cons, bne, hc, ih]

theorem takeWhile_all {p : Char → Bool} {l : List Char} (h : ∀ x ∈ l, p x = true) :
    l.takeWhile p = l := by
  induction l with
  | nil => rfl
  | cons a l ih =>
    rw [List.takeWhile_cons, h a (List.mem_cons_self a l)]
    simp [ih fun x hx => h x (List.mem_cons_of_mem a hx)]

theorem takeWhile_append_all {p : Char → Bool} {l₁ : List Char} (l₂ : List Char)
    (h : ∀ x ∈ l₁, p x = true) : (l₁ ++ l₂).takeWhile p = l₁ ++ l₂.takeWhile p := by
  induction l₁ with
  | nil => rfl
  | cons a l ih =>
    rw [List.cons_append, List.takeWhile_cons, h a (List.mem_cons_self a l)]
    simp [ih fun x hx => h x (List.mem_cons_of_mem a hx)]

theorem takeWhile_append_stop {p : Char → Bool} {l₁ : List Char} (l₂ : List Char)
    (h : ∃ x ∈ l₁, p x = false) : (l₁ ++ l₂).takeWhile p = l₁.takeWhile p := by
  induction l₁ with
  | nil => obtain ⟨x, hx, _⟩ := h; exact absurd hx (List.not_mem_nil x)
  | cons a l ih =>
    rw [List.cons_append, List.takeWhile_cons, List.takeWhile_cons]
    cases ha : p a with
    | false => rfl
    | true =>
      obtain ⟨x, hx, hpx⟩ := h
      rcases List.mem_cons.mp hx with rfl | hx2
      · rw [ha] at hpx; exact absurd hpx (by simp)
      · simp [ih ⟨x, hx2, hpx⟩]

theorem takeWhile_append_singleton_neg {p : Char → Bool} {l : List Char} {c : Char}
    (hc : p c = false) : (l ++ [c]).takeWhile p = l.takeWhile p := by
  by_cases hall : ∀ x ∈ l, p x = true
  · rw [takeWhile_append_all [c] hall, takeWhile_all hall]
    simp [List.takeWhile_cons, hc]
  · push_neg at hall
    obtain ⟨x, hx, hpx⟩ := hall
    refine takeWhile_append_stop [c] ⟨x, hx, ?_⟩
    cases hv : p x with
    | false => rfl
    | true => exact absurd hv hpx

theorem splitOnChar_nosep (sep : Char) (cs : List Char)
    (h : ∀ x ∈ cs, x ≠ sep) : splitOnChar sep cs = [cs] := by
  induction cs with
  | nil => rfl
  | cons c rest ih =>
    rw [splitOnChar, ih fun x hx => h x (List.mem_cons_of_mem c hx)]
    simp [h c (List.mem_cons_self c rest)]

theorem splitOnChar_singleton (sep : Char) (cs t : List Char)
    (h : splitOnChar sep cs = [t]) : t = cs ∧ ∀ x ∈ cs, x ≠ sep := by
  induction cs generalizing t with
  | nil =>
    simp [splitOnChar] at h
    exact ⟨h, by simp⟩
  | cons c rest ih =>
    rw [splitOnChar] at h
    cases hs : splitOnChar sep rest with
    | nil => exact absurd hs (splitOnChar_ne_nil sep rest)
    | cons t2 ts =>
      rw [hs] at h
      by_cases hc : c = sep
      · simp [hc] at h
      · simp only [hc, ite_false] at h
        have h2 := List.cons.injEq (c :: t2) ts t [] ▸ h
        rw [List.cons.injEq] at h
        obtain ⟨ht, hts⟩ := h
        subst hts
        obtain ⟨ht2, hns⟩ := ih t2 hs
        subst ht2
        refine ⟨ht.symm, ?_⟩
        intro x hx
        rcases List.mem_cons.mp hx with rfl | hx2
        · exact hc
        · exact hns x hx2

theorem splitOnChar_getLast (sep : Char) (cs : List Char) :
    (splitOnChar sep cs).getLast? =
      some ((cs.reverse.takeWhile (fun y => y != sep)).reverse) := by
  induction cs with
  | nil => simp [splitOnChar]
  | cons c rest ih =>
    cases hs : splitOnChar sep rest with
    | nil => exact absurd hs (splitOnChar_ne_nil sep rest)
    | cons t ts =>
      rw [hs] at ih
      simp only [splitOnChar, hs, List.reverse_cons]
      by_cases hc : c = sep
      · subst hc
        rw [if_pos rfl, List.getLast?_cons_cons, ih,
          takeWhile_append_singleton_neg (by simp)]
      · rw [if_neg hc]
        cases ts with
        | nil =>
          obtain ⟨ht, hns⟩ := splitOnChar_singleton sep rest t hs
          have hall : ∀ x ∈ rest.reverse, (x != sep) = true := by
            intro x hx
            simpa using hns x (List.mem_reverse.mp hx)
          have hone : List.takeWhile (fun y => y != sep) [c] = [c] := by
            simp [List.takeWhile_cons, bne, hc]
          rw [takeWhile_append_all [c] hall, hone, List.reverse_append]
          simp [ht]
        | cons t2 ts2 =>
          rw [List.getLast?_cons_cons] at ih
          rw [List.getLast?_cons_cons, ih, takeWhile_append_stop [c] ?hex]
          case hex =>
            by_cases hsep : ∃ x ∈ rest, x = sep
            · obtain ⟨x, hx, rfl⟩ := hsep
              exact ⟨x, List.mem_reverse.mpr hx, by simp⟩
            · push_neg at hsep
              rw [splitOnChar_nosep sep rest hsep] at hs
              simp at hs

theorem sizeToken_eq_spec (range : List Char) : sizeToken range = sizeTokenSpec range := by
  unfold sizeToken sizeTokenSpec
  have hne := splitOnChar_ne_nil '-' range
  simp only [hne, false_and, ite_false]
  rw [splitOnChar_head '-' range, splitOnChar_getLast '-' range]
  simp only
  cases parseU32 (range.takeWhile fun y => y != '-') with
  | none => rfl
  | some f =>
    cases parseU32 (range.reverse.takeWhile fun y => y != '-').reverse with
    | none => rfl
    | some t =>
      simp only
      by_cases hle : f ≤ t
      · simp [hle, Nat.not_lt.mpr hle, gt_iff_lt]
      · simp [hle, gt_iff_lt, Nat.lt_of_not_le hle]

/-- C8: `size_deserialize` never fails after the query string is in hand: it
yields `None` exactly on the empty string, and otherwise the set of ranges in
which each comma-separated token contributes a pair precisely when the
substring before its first dash parses as a `u32` lower bound, the substring
after its last dash parses as a `u32` upper bound, and the bounds are
ordered; every other token is silently dropped, and a dash-free token
contributes the degenerate pair. -/
theorem size_deserialize_spec (s : List Char) :
    size_deserialize s = sizeSpec s ∧ (size_deserialize s = none ↔ s = []) := by
  have hfun : sizeToken = sizeTokenSpec := funext sizeToken_eq_spec
  constructor
  · unfold size_deserialize sizeSpec
    rw [hfun]
  · unfold size_deserialize
    by_cases h : s = [] <;> simp [h]

/-! ## C5: the frame of one loop iteration -/

theorem pipelineState_frame :
    ∀ (msgs : List StreamerMessage) (s : ListenState),
      (pipelineState s msgs).watching_list = s.watching_list ∧
      (pipelineState s msgs).engine = s.engine ∧
      (pipelineState s msgs).pool = s.pool := by
  intro msgs
  induction msgs with
  | nil => intro s; exact ⟨rfl, rfl, rfl⟩
  | cons m rest ih =>
    intro s
    have h := ih (stepBlock s m).1
    exact ⟨h.1, h.2.1, h.2.2⟩

/-- C5: processing one block mutates only the Correlation Map among the state
carried across loop iterations: the watchlist, the base64 engine and the pool
handle after one step — and after any number of steps — are the values the
loop started with; only `tx_receipt_ids` is rebuilt. -/
theorem block_step_frame (s : ListenState) (msg : StreamerMessage) :
    (stepBlock s msg).1.watching_list = s.watching_list ∧
    (stepBlock s msg).1.engine = s.engine ∧
    (stepBlock s msg).1.pool = s.pool ∧
    (stepBlock s msg).1.tx_receipt_ids =
      (filter_outcomes msg
        (mapExtend s.tx_receipt_ids (collect_transactions msg s.watching_list))).1 ∧
    ∀ msgs, (pipelineState s msgs).watching_list = s.watching_list ∧
      (pipelineState s msgs).engine = s.engine ∧
      (pipelineState s msgs).pool = s.pool :=
  ⟨rfl, rfl, rfl, rfl, fun msgs => pipelineState_frame msgs s⟩

/-! ## C4: key uniqueness of the Correlation Map -/

theorem keysNodup_mapRemove {m : CorrelationMap} (k : ReceiptId)
    (h : KeysNodup m) : KeysNodup (mapRemove m k) :=
  h.sublist ((List.filter_sublist m).map Prod.fst)

theorem not_mem_keys_mapRemove (m : CorrelationMap) (k : ReceiptId) :
    k ∉ (mapRemove m k).map Prod.fst := by
  intro hmem
  rw [List.mem_map] at hmem
  obtain ⟨p, hp, hpk⟩ := hmem
  rw [mapRemove, List.mem_filter] at hp
  rw [hpk] at hp
  simp at hp

theorem keysNodup_mapInsert {m : CorrelationMap} (k : ReceiptId) (v : TxHash)
    (h : KeysNodup m) : KeysNodup (mapInsert m k v) := by
  rw [KeysNodup, mapInsert, List.map_cons]
  exact List.Nodup.cons (not_mem_keys_mapRemove m k) (keysNodup_mapRemove k h)

theorem keysNodup_mapExtend :
    ∀ (ps : List (ReceiptId × TxHash)) (m : CorrelationMap),
      KeysNodup m → KeysNodup (mapExtend m ps) := by
  intro ps
  induction ps with
  | nil => intro m h; exact h
  | cons p rest ih =>
    intro m h
    exact ih (mapInsert m p.1 p.2) (keysNodup_mapInsert p.1 p.2 h)

theorem keysNodup_outcomeStep (st : CorrelationMap × List (ExecutionOutcome × TxHash))
    (o : ExecutionOutcome) (h : KeysNodup st.1) : KeysNodup (outcomeStep st o).1 := by
  rw [outcomeStep]
  cases mapLookup st.1 o.receiptId with
  | none => exact h
  | some txHash =>
    cases o.status with
    | forwardTo newId =>
      exact keysNodup_mapInsert newId txHash (keysNodup_mapRemove o.receiptId h)
    | finalValue v => exact keysNodup_mapRemove o.receiptId h
    | failed => exact keysNodup_mapRemove o.receiptId h

theorem keysNodup_foldl_outcomeStep :
    ∀ (os : List ExecutionOutcome) (st : CorrelationMap × List (ExecutionOutcome × TxHash)),
      KeysNodup st.1 → KeysNodup (os.foldl outcomeStep st).1 := by
  intro os
  induction os with
  | nil => intro st h; exact h
  | cons o rest ih => intro st h; exact ih _ (keysNodup_outcomeStep st o h)

theorem keysNodup_filter_outcomes (msg : StreamerMessage) {m : CorrelationMap}
    (h : KeysNodup m) : KeysNodup (filter_outcomes msg m).1 :=
  keysNodup_foldl_outcomeStep (blockOutcomes msg) (m, []) h

theorem keysNodup_pipeline :
    ∀ (msgs : List StreamerMessage) (s : ListenState),
      KeysNodup s.tx_receipt_ids → KeysNodup (pipelineState s msgs).tx_receipt_ids := by
  intro msgs
  induction msgs with
  | nil => intro s h; exact h
  | cons m rest ih =>
    intro s h
    exact ih (stepBlock s m).1
      (keysNodup_filter_outcomes m (keysNodup_mapExtend _ _ h))

/-- C4: every receipt id keys at most one Correlation Map entry, and this
uniqueness is preserved by the Seeder merge, by the Outcome Filter run of a
block, and hence across any number of processed blocks. -/
theorem correlation_keys_unique (m : CorrelationMap) (msg : StreamerMessage)
    (w : List AccountId) (hm : KeysNodup m) :
    KeysNodup (mapExtend m (collect_transactions msg w)) ∧
    KeysNodup (filter_outcomes msg (mapExtend m (collect_transactions msg w))).1 ∧
    ∀ (s : ListenState) (msgs : List StreamerMessage),
      KeysNodup s.tx_receipt_ids → KeysNodup (pipelineState s msgs).tx_receipt_ids := by
  have h1 := keysNodup_mapExtend (collect_transactions msg w) m hm
  exact ⟨h1, keysNodup_filter_outcomes msg h1, fun s msgs => keysNodup_pipeline msgs s⟩

/-- Witness for C4: the empty map has unique keys, and so does everything the
sample block produces from it. -/
theorem correlation_keys_unique_witness :
    KeysNodup (mapExtend [] (collect_transactions sampleMsg ["alice.test"])) ∧
    KeysNodup (filter_outcomes sampleMsg
      (mapExtend [] (collect_transactions sampleMsg ["alice.test"]))).1 ∧
    ∀ (s : ListenState) (msgs : List StreamerMessage),
      KeysNodup s.tx_receipt_ids → KeysNodup (pipelineState s msgs).tx_receipt_ids :=
  correlation_keys_unique [] sampleMsg ["alice.test"] (by simp [KeysNodup])

/-! ## Sink-write lemmas shared by the loop claims -/

theorem writeRecords_all_ok (sink : SinkModel) :
    ∀ (recs : List CallRecord), (∀ r ∈ recs, sink.ok r = true) →
      writeRecords sink recs = (recs.map Event.wrote, recs, none) := by
  intro recs
  induction recs with
  | nil => intro _; rfl
  | cons r rest ih =>
    intro h
    have hr : sink.ok r = true := h r (List.mem_cons_self r rest)
    have hrest := ih fun x hx => h x (List.mem_cons_of_mem r hx)
    simp [writeRecords, hr, hrest]

theorem writeRecords_first_fail (sink : SinkModel) :
    ∀ (p : List CallRecord) (r : CallRecord) (q : List CallRecord),
      (∀ x ∈ p, sink.ok x = true) → sink.ok r = false →
      writeRecords sink (p ++ r :: q) =
        (p.map Event.wrote ++ [Event.insertFailed r], p, some r) := by
  intro p
  induction p with
  | nil => intro r q _ hr; simp [writeRecords, hr]
  | cons a p ih =>
    intro r q hp hr
    have ha : sink.ok a = true := hp a (List.mem_cons_self a p)
    have hrec := ih r q (fun x hx => hp x (List.mem_cons_of_mem a hx)) hr
    simp [writeRecords, ha, hrec]

theorem exists_first_fail {α : Type} {P : α → Bool} :
    ∀ (l : List α), ¬(∀ x ∈ l, P x = true) →
      ∃ p y q, l = p ++ y :: q ∧ (∀ x ∈ p, P x = true) ∧ P y = false := by
  intro l
  induction l with
  | nil => intro h; exact absurd (fun x hx => absurd hx (List.not_mem_nil x)) h
  | cons a l ih =>
    intro h
    cases ha : P a with
    | false =>
      exact ⟨[], a, l, rfl, fun x hx => absurd hx (List.not_mem_nil x), ha⟩
    | true =>
      have hl : ¬(∀ x ∈ l, P x = true) := by
        intro hall
        refine h fun x hx => ?_
        rcases List.mem_cons.mp hx with rfl | hx2
        · exact ha
        · exact hall x hx2
      obtain ⟨p, y, q, hsplit, hp, hy⟩ := ih hl
      exact ⟨a :: p, y, q, by rw [hsplit, List.cons_append],
        fun x hx => by
          rcases List.mem_cons.mp hx with rfl | hx2
          · exact ha
          · exact hp x hx2, hy⟩

theorem all_prefix_split {α : Type} (P : α → Bool) :
    ∀ (l₁ : List α) (pre : List α) (l₂ post : List α) (r : α),
      l₁ ++ l₂ = pre ++ r :: post → (∀ x ∈ l₁, P x = true) → P r = false →
      ∃ pre2, pre = l₁ ++ pre2 ∧ l₂ = pre2 ++ r :: post := by
  intro l₁
  induction l₁ with
  | nil =>
    intro pre l₂ post r h _ _
    exact ⟨pre, rfl, by simpa using h⟩
  | cons a l₁ ih =>
    intro pre l₂ post r h hall hr
    cases pre with
    | nil =>
      rw [List.cons_append, List.nil_append, List.cons.injEq] at h
      rw [← h.1] at hr
      rw [hall a (List.mem_cons_self a l₁)] at hr
      exact absurd hr (by simp)
    | cons b pre2 =>
      rw [List.cons_append, List.cons_append, List.cons.injEq] at h
      obtain ⟨p3, hpre, hl₂⟩ :=
        ih pre2 l₂ post r h.2 (fun x hx => hall x (List.mem_cons_of_mem a hx)) hr
      exact ⟨p3, by rw [List.cons_append, h.1, hpre], hl₂⟩

theorem first_fail_unique {α : Type} (P : α → Bool) :
    ∀ (pre p : List α) (r r0 : α) (post q : List α),
      pre ++ r :: post = p ++ r0 :: q →
      (∀ x ∈ pre, P x = true) → (∀ x ∈ p, P x = true) →
      P r = false → P r0 = false → pre = p ∧ r = r0 ∧ post = q := by
  intro pre
  induction pre with
  | nil =>
    intro p r r0 post q h _ hp hr hr0
    cases p with
    | nil =>
      rw [List.nil_append, List.nil_append, List.cons.injEq] at h
      exact ⟨rfl, h.1, h.2⟩
    | cons b p2 =>
      rw [List.nil_append, List.cons_append, List.cons.injEq] at h
      rw [h.1] at hr
      rw [hp b (List.mem_cons_self b p2)] at hr
      exact absurd hr (by simp)
  | cons a pre2 ih =>
    intro p r r0 post q h hpre hp hr hr0
    cases p with
    | nil =>
      rw [List.cons_append, List.nil_append, List.cons.injEq] at h
      rw [← h.1] at hr0
      rw [hpre a (List.mem_cons_self a pre2)] at hr0
      exact absurd hr0 (by simp)
    | cons b p2 =>
      rw [List.cons_append, List.cons_append, List.cons.injEq] at h
      obtain ⟨h1, h2, h3⟩ :=
        ih p2 r r0 post q h.2 (fun x hx => hpre x (List.mem_cons_of_mem a hx))
          (fun x hx => hp x (List.mem_cons_of_mem b hx)) hr hr0
      exact ⟨by rw [h.1, h1], h2, h3⟩

/-! ## C6: clean exit at end of stream -/

theorem listen_blocks_all_ok (sink : SinkModel) :
    ∀ (msgs : List StreamerMessage) (s : ListenState) (db : List CallRecord),
      (∀ r ∈ pipelineRecords s msgs, sink.ok r = true) →
      (listen_blocks sink s db msgs).2 =
        Except.ok (pipelineState s msgs, db ++ pipelineRecords s msgs) := by
  intro msgs
  induction msgs with
  | nil =>
    intro s db _
    simp [listen_blocks, pipelineRecords, pipelineState]
  | cons msg rest ih =>
    intro s db h
    have hrecs : ∀ r ∈ (blockPipeline s msg).records, sink.ok r = true := fun r hr =>
      h r (by
        rw [pipelineRecords]
        exact List.mem_append_left _ hr)
    have hrest : ∀ r ∈ pipelineRecords (blockPipeline s msg).next rest, sink.ok r = true :=
      fun r hr =>
        h r (by
          rw [pipelineRecords]
          exact List.mem_append_right _ hr)
    have hw := writeRecords_all_ok sink (blockPipeline s msg).records hrecs
    have hih := ih (blockPipeline s msg).next (db ++ (blockPipeline s msg).records) hrest
    simp only [listen_blocks, hw]
    rw [hih, pipelineRecords, List.append_assoc]
    rfl

/-- C6: a closed or exhausted Block Source ends the loop cleanly: an empty
stream returns at once with the store untouched, and when the Sink accepts
every produced record the loop returns normally after fully processing every
received block, whereupon `main` returns `Ok(())`; end of stream is never an
error. -/
theorem stream_end_clean_exit (sink : SinkModel) (accounts : String)
    (msgs : List StreamerMessage)
    (hok : ∀ r ∈ pipelineRecords (startState accounts) msgs, sink.ok r = true) :
    (listen_blocks sink (startState accounts) [] msgs).2 =
      Except.ok (pipelineState (startState accounts) msgs,
        pipelineRecords (startState accounts) msgs) ∧
    main_model sink accounts msgs = Except.ok () ∧
    ∀ (s : ListenState) (db : List CallRecord),
      (listen_blocks sink s db []).2 = Except.ok (s, db) := by
  have h1 := listen_blocks_all_ok sink msgs (startState accounts) [] hok
  rw [List.nil_append] at h1
  refine ⟨h1, ?_, fun s db => rfl⟩
  rw [main_model, h1]

/-- Witness for C6: with a Sink accepting everything, the loop over the
sample block finishes with `Ok` and `main` returns `Ok(())`. -/
theorem stream_end_clean_exit_witness :
    (listen_blocks okSink (startState "alice.test") [] [sampleMsg]).2 =
      Except.ok (pipelineState (startState "alice.test") [sampleMsg],
        pipelineRecords (startState "alice.test") [sampleMsg]) ∧
    main_model okSink "alice.test" [sampleMsg] = Except.ok () ∧
    ∀ (s : ListenState) (db : List CallRecord),
      (listen_blocks okSink s db []).2 = Except.ok (s, db) :=
  stream_end_clean_exit okSink "alice.test" [sampleMsg] (fun _ _ => rfl)

/-! ## C2: a Sink failure is fatal -/

/-- C2: at the first record the Sink rejects, the loop terminates fatally at
once: the persisted store holds exactly the records inserted before the
failure (earlier blocks' records and the failing block's earlier records), no
later record of the block is inserted, and no further block is processed. -/
theorem sink_failure_fatal (sink : SinkModel) :
    ∀ (msgs : List StreamerMessage) (s : ListenState)
      (db pre post : List CallRecord) (r : CallRecord),
      pipelineRecords s msgs = pre ++ r :: post →
      (∀ x ∈ pre, sink.ok x = true) → sink.ok r = false →
      (listen_blocks sink s db msgs).2 = Except.error (db ++ pre, r) := by
  intro msgs
  induction msgs with
  | nil =>
    intro s db pre post r hsplit _ _
    rw [pipelineRecords] at hsplit
    cases pre <;> simp at hsplit
  | cons msg rest ih =>
    intro s db pre post r hsplit hpre hr
    rw [pipelineRecords, stepBlock] at hsplit
    by_cases hall : ∀ x ∈ (blockPipeline s msg).records, sink.ok x = true
    · obtain ⟨pre2, hpre2, hrest⟩ :=
        all_prefix_split sink.ok (blockPipeline s msg).records pre _ post r hsplit hall hr
      have hw := writeRecords_all_ok sink (blockPipeline s msg).records hall
      have hpre2ok : ∀ x ∈ pre2, sink.ok x = true := fun x hx =>
        hpre x (by rw [hpre2]; exact List.mem_append_right _ hx)
      have hih := ih (blockPipeline s msg).next (db ++ (blockPipeline s msg).records)
        pre2 post r hrest hpre2ok hr
      simp only [listen_blocks, hw]
      rw [hih, hpre2, ← List.append_assoc]
    · obtain ⟨p, y, q, hrecs, hpok, hy⟩ := exists_first_fail _ hall
      have hw := writeRecords_first_fail sink p y q hpok hy
      have hsplit2 : pre ++ r :: post =
          p ++ y :: (q ++ pipelineRecords (blockPipeline s msg).next rest) := by
        rw [← hsplit, hrecs]
        simp [List.append_assoc]
      obtain ⟨hpe, hre, _⟩ :=
        first_fail_unique sink.ok pre p r y post _ hsplit2 hpre hpok hr hy
      subst hpe
      subst hre
      simp only [listen_blocks, hrecs, hw]

/-- Witness for C2: a Sink rejecting everything fails on the sample block's
single record, the loop stops with an empty store. -/
theorem sink_failure_fatal_witness :
    (listen_blocks failSink (startState "alice.test") [] [sampleMsg]).2 =
      Except.error (([] : List CallRecord) ++ [], sampleRec) :=
  sink_failure_fatal failSink [sampleMsg] (startState "alice.test") [] [] [] sampleRec
    (by rfl) (fun x hx => absurd hx (List.not_mem_nil x)) rfl

/-! ## C1: per-block processing order of the driving loop -/

theorem writeRecords_events_write (sink : SinkModel) :
    ∀ (recs : List CallRecord), ∀ e ∈ (writeRecords sink recs).1, isWriteEvent e = true := by
  intro recs
  induction recs with
  | nil => intro e he; exact absurd he (List.not_mem_nil e)
  | cons r rest ih =>
    intro e he
    rw [writeRecords] at he
    cases hr : sink.ok r with
    | true =>
      rw [hr] at he
      simp only [ite_true] at he
      rcases List.mem_cons.mp he with rfl | he2
      · rfl
      · exact ih e he2
    | false =>
      rw [hr] at he
      simp only [Bool.false_eq_true, ite_false, List.mem_singleton] at he
      subst he
      rfl

theorem writeRecords_written (sink : SinkModel) :
    ∀ (recs : List CallRecord),
      (writeRecords sink recs).1.flatMap writtenRecs = (writeRecords sink recs).2.1 := by
  intro recs
  induction recs with
  | nil => rfl
  | cons r rest ih =>
    rw [writeRecords]
    cases hr : sink.ok r with
    | true => simp [writtenRecs, ih]
    | false => simp [writtenRecs]

theorem writeRecords_inserted_isPre (sink : SinkModel) :
    ∀ (recs : List CallRecord), (writeRecords sink recs).2.1 <+: recs := by
  intro recs
  induction recs with
  | nil => exact List.nil_prefix
  | cons r rest ih =>
    rw [writeRecords]
    cases hr : sink.ok r with
    | true =>
      simp only [ite_true]
      obtain ⟨t, ht⟩ := ih
      exact ⟨t, by rw [List.cons_append, ht]⟩
    | false =>
      simp only [Bool.false_eq_true, ite_false]
      exact List.nil_prefix

theorem writeRecords_none_complete (sink : SinkModel) :
    ∀ (recs : List CallRecord), (writeRecords sink recs).2.2 = none →
      (writeRecords sink recs).2.1 = recs := by
  intro recs
  induction recs with
  | nil => intro _; rfl
  | cons r rest ih =>
    intro h
    rw [writeRecords] at h ⊢
    cases hr : sink.ok r with
    | true =>
      rw [hr] at h
      simp at h ⊢
      exact ih h
    | false =>
      rw [hr] at h
      simp at h

theorem writeRecords_fail_event (sink : SinkModel) :
    ∀ (recs : List CallRecord) (r : CallRecord),
      (writeRecords sink recs).2.2 = some r →
      Event.insertFailed r ∈ (writeRecords sink recs).1 := by
  intro recs
  induction recs with
  | nil => intro r h; simp [writeRecords] at h
  | cons a rest ih =>
    intro r h
    rw [writeRecords] at h ⊢
    cases ha : sink.ok a with
    | true =>
      rw [ha] at h
      simp at h ⊢
      exact ih r h
    | false =>
      rw [ha] at h
      simp at h ⊢
      exact h.symm

theorem block_segment_ok (sink : SinkModel) (s : ListenState) (msg : StreamerMessage) :
    ∃ wl sp pairs f d w,
      (Event.seeded s.watching_list (blockPipeline s msg).seedPairs ::
        Event.filtered (blockPipeline s msg).emitted ::
        ((blockPipeline s msg).emitted.map
          (fun p => Event.decoded p (process_outcome p.1 p.2 s.engine msg.block)) ++
         (writeRecords sink (blockPipeline s msg).records).1)) =
        Event.seeded wl sp :: Event.filtered pairs :: (d ++ w) ∧
      d = pairs.map (fun p => Event.decoded p (f p)) ∧
      (∀ e ∈ w, isWriteEvent e = true) ∧
      (w.flatMap writtenRecs <+: pairs.flatMap f) ∧
      ((∀ e ∈ w, ∃ r0, e = Event.wrote r0) → w.flatMap writtenRecs = pairs.flatMap f) := by
  refine ⟨s.watching_list, (blockPipeline s msg).seedPairs, (blockPipeline s msg).emitted,
    fun p => process_outcome p.1 p.2 s.engine msg.block, _,
    (writeRecords sink (blockPipeline s msg).records).1, rfl, rfl,
    writeRecords_events_write sink _, ?_, ?_⟩
  · rw [writeRecords_written sink]
    exact writeRecords_inserted_isPre sink _
  · intro hall
    rw [writeRecords_written sink]
    cases hfail : (writeRecords sink (blockPipeline s msg).records).2.2 with
    | some r =>
      obtain ⟨r0, hr0⟩ := hall _ (writeRecords_fail_event sink _ r hfail)
      exact absurd hr0 (by simp)
    | none => exact writeRecords_none_complete sink _ hfail

/-- C1: the driving loop's event trace decomposes into one segment per
processed block; in every segment the Seeder runs first, then the Outcome
Filter, then exactly one decode per emitted pair in emission order, and only
after all decoding the Sink writes, one record-wise event at a time; the
written records follow the decoded records' concatenation order, all of them
when no write fails. -/
theorem driving_loop_order (sink : SinkModel) :
    ∀ (msgs : List StreamerMessage) (s : ListenState) (db : List CallRecord),
      ∃ segs : List (List Event),
        (listen_blocks sink s db msgs).1 = segs.flatten ∧
        ∀ seg ∈ segs, ∃ wl sp pairs f d w,
          seg = Event.seeded wl sp :: Event.filtered pairs :: (d ++ w) ∧
          d = pairs.map (fun p => Event.decoded p (f p)) ∧
          (∀ e ∈ w, isWriteEvent e = true) ∧
          (w.flatMap writtenRecs <+: pairs.flatMap f) ∧
          ((∀ e ∈ w, ∃ r0, e = Event.wrote r0) →
            w.flatMap writtenRecs = pairs.flatMap f) := by
  intro msgs
  induction msgs with
  | nil =>
    intro s db
    exact ⟨[], by simp [listen_blocks], fun seg hseg => absurd hseg (List.not_mem_nil seg)⟩
  | cons msg rest ih =>
    intro s db
    cases hw2 : (writeRecords sink (blockPipeline s msg).records).2.2 with
    | some r =>
      refine ⟨[Event.seeded s.watching_list (blockPipeline s msg).seedPairs ::
        Event.filtered (blockPipeline s msg).emitted ::
        ((blockPipeline s msg).emitted.map
          (fun p => Event.decoded p (process_outcome p.1 p.2 s.engine msg.block)) ++
         (writeRecords sink (blockPipeline s msg).records).1)], ?_, ?_⟩
      · simp only [listen_blocks, hw2]
        simp
      · intro seg hseg
        rw [List.mem_singleton] at hseg
        subst hseg
        exact block_segment_ok sink s msg
    | none =>
      obtain ⟨segs, htr, hsegs⟩ := ih (blockPipeline s msg).next
        (db ++ (writeRecords sink (blockPipeline s msg).records).2.1)
      refine ⟨(Event.seeded s.watching_list (blockPipeline s msg).seedPairs ::
        Event.filtered (blockPipeline s msg).emitted ::
        ((blockPipeline s msg).emitted.map
          (fun p => Event.decoded p (process_outcome p.1 p.2 s.engine msg.block)) ++
         (writeRecords sink (blockPipeline s msg).records).1)) :: segs, ?_, ?_⟩
      · simp only [listen_blocks, hw2]
        rw [List.flatten_cons, ← htr]
        simp
      · intro seg hseg
        rcases List.mem_cons.mp hseg with rfl | hseg2
        · exact block_segment_ok sink s msg
        · exact hsegs seg hseg2

/-- Witness for C1: the trace of the sample run decomposes into ordered
segments. -/
theorem driving_loop_order_witness :
    ∃ segs : List (List Event),
      (listen_blocks okSink (startState "alice.test") [] [sampleMsg]).1 = segs.flatten ∧
      ∀ seg ∈ segs, ∃ wl sp pairs f d w,
        seg = Event.seeded wl sp :: Event.filtered pairs :: (d ++ w) ∧
        d = pairs.map (fun p => Event.decoded p (f p)) ∧
        (∀ e ∈ w, isWriteEvent e = true) ∧
        (w.flatMap writtenRecs <+: pairs.flatMap f) ∧
        ((∀ e ∈ w, ∃ r0, e = Event.wrote r0) →
          w.flatMap writtenRecs = pairs.flatMap f) :=
  driving_loop_order okSink [sampleMsg] (startState "alice.test") []

/-! ## C7: the Watchlist is fixed at startup -/

theorem seeded_events_watchlist (sink : SinkModel) :
    ∀ (msgs : List StreamerMessage) (s : ListenState) (db : List CallRecord)
      (wl : List AccountId) (sp : List (ReceiptId × TxHash)),
      Event.seeded wl sp ∈ (listen_blocks sink s db msgs).1 → wl = s.watching_list := by
  intro msgs
  induction msgs with
  | nil =>
    intro s db wl sp h
    simp [listen_blocks] at h
  | cons msg rest ih =>
    intro s db wl sp h
    have hseg : ∀ hmem : Event.seeded wl sp ∈
        (Event.seeded s.watching_list (blockPipeline s msg).seedPairs ::
          Event.filtered (blockPipeline s msg).emitted ::
          ((blockPipeline s msg).emitted.map
            (fun p => Event.decoded p (process_outcome p.1 p.2 s.engine msg.block)) ++
           (writeRecords sink (blockPipeline s msg).records).1)),
        wl = s.watching_list := by
      intro hmem
      rcases List.mem_cons.mp hmem with he | hmem2
      · simp only [Event.seeded.injEq] at he
        exact he.1
      rcases List.mem_cons.mp hmem2 with he | hmem3
      · exact absurd he (by simp)
      rcases List.mem_append.mp hmem3 with hd | hw
      · rw [List.mem_map] at hd
        obtain ⟨p, _, hp⟩ := hd
        exact absurd hp (by simp)
      · have := writeRecords_events_write sink _ _ hw
        simp [isWriteEvent] at this
    cases hw2 : (writeRecords sink (blockPipeline s msg).records).2.2 with
    | some r =>
      rw [listen_blocks] at h
      simp only [hw2] at h
      exact hseg h
    | none =>
      rw [listen_blocks] at h
      simp only [hw2] at h
      rcases List.mem_cons.mp h with he | hmem2
      · simp only [Event.seeded.injEq] at he
        exact he.1
      rcases List.mem_cons.mp hmem2 with he | hmem3
      · exact absurd he (by simp)
      rcases List.mem_append.mp hmem3 with hmid | hnext
      · rcases List.mem_append.mp hmid with hd | hw
        · rw [List.mem_map] at hd
          obtain ⟨p, _, hp⟩ := hd
          exact absurd hp (by simp)
        · have := writeRecords_events_write sink _ _ hw
          simp [isWriteEvent] at this
      · exact ih (blockPipeline s msg).next _ wl sp hnext

/-- C7: the Watchlist consulted by the Seeder at every processed block is the
very value `main` parsed from `--accounts` at startup — the loop never
mutates it — and watchlist membership is a pure boolean test agreeing with
list membership. -/
theorem watchlist_immutable (sink : SinkModel) (accounts : String)
    (db : List CallRecord) (msgs : List StreamerMessage) :
    (∀ (wl : List AccountId) (sp : List (ReceiptId × TxHash)),
      Event.seeded wl sp ∈ (listen_blocks sink (startState accounts) db msgs).1 →
        wl = parseWatchlist accounts) ∧
    (∀ (w : List AccountId) (a : AccountId), w.contains a = true ↔ a ∈ w) := by
  constructor
  · intro wl sp h
    exact seeded_events_watchlist sink msgs (startState accounts) db wl sp h
  · intro w a
    simp [List.contains]

/-- Witness for C7: in the sample run over one empty block, the Seeder event
carries exactly the startup watchlist. -/
theorem watchlist_immutable_witness :
    parseWatchlist "alice.test" = parseWatchlist "alice.test" ∧
    (["alice.test"].contains "alice.test" = true ↔ "alice.test" ∈ ["alice.test"]) := by
  constructor
  · refine (watchlist_immutable okSink "alice.test" [] [emptyMsg]).1
      (parseWatchlist "alice.test") [] ?_
    have ht : (listen_blocks okSink (startState "alice.test") [] [emptyMsg]).1 =
        [Event.seeded (parseWatchlist "alice.test") [], Event.filtered []] := by rfl
    rw [ht]
    exact List.mem_cons_self _ _
  · exact (watchlist_immutable okSink "alice.test" [] [emptyMsg]).2 ["alice.test"] "alice.test"

/-! ## C3: forward-chain continuity — map and step lemmas -/

theorem outcomeStep_none (m : CorrelationMap) (em : List (ExecutionOutcome × TxHash))
    (o : ExecutionOutcome) (h : mapLookup m o.receiptId = none) :
    outcomeStep (m, em) o = (m, em) := by
  simp [outcomeStep, h]

theorem outcomeStep_forward (m : CorrelationMap) (em : List (ExecutionOutcome × TxHash))
    (o : ExecutionOutcome) (tx : TxHash) (t : ReceiptId)
    (h : mapLookup m o.receiptId = some tx) (hst : o.status = ExecutionStatus.forwardTo t) :
    outcomeStep (m, em) o = (mapInsert (mapRemove m o.receiptId) t tx, em) := by
  simp [outcomeStep, h, hst]

theorem outcomeStep_final (m : CorrelationMap) (em : List (ExecutionOutcome × TxHash))
    (o : ExecutionOutcome) (tx : TxHash) (v : String)
    (h : mapLookup m o.receiptId = some tx) (hst : o.status = ExecutionStatus.finalValue v) :
    outcomeStep (m, em) o = (mapRemove m o.receiptId, em ++ [(o, tx)]) := by
  simp [outcomeStep, h, hst]

theorem outcomeStep_failed (m : CorrelationMap) (em : List (ExecutionOutcome × TxHash))
    (o : ExecutionOutcome) (tx : TxHash)
    (h : mapLookup m o.receiptId = some tx) (hst : o.status = ExecutionStatus.failed) :
    outcomeStep (m, em) o = (mapRemove m o.receiptId, em) := by
  simp [outcomeStep, h, hst]

theorem mapLookup_mem {m : CorrelationMap} {k : ReceiptId} {v : TxHash}
    (h : mapLookup m k = some v) : (k, v) ∈ m := by
  rw [mapLookup] at h
  cases hf : m.find? (fun p => p.1 == k) with
  | none => rw [hf] at h; simp at h
  | some p =>
    rw [hf] at h
    simp at h
    have hmem := List.mem_of_find?_eq_some hf
    have hpred := List.find?_some hf
    rw [beq_iff_eq] at hpred
    have hp : p = (k, v) := by
      cases p with
      | mk p1 p2 => simp only at hpred h; rw [hpred, h]
    rw [← hp]
    exact hmem

theorem mapLookup_cons_pos {p : ReceiptId × TxHash} {k : ReceiptId} (rest : CorrelationMap)
    (h : p.1 = k) : mapLookup (p :: rest) k = some p.2 := by
  have hp : (fun q : ReceiptId × TxHash => q.1 == k) p = true := by simp [h]
  rw [mapLookup, List.find?_cons_of_pos rest hp]
  rfl

theorem mapLookup_cons_neg {p : ReceiptId × TxHash} {k : ReceiptId} (rest : CorrelationMap)
    (h : p.1 ≠ k) : mapLookup (p :: rest) k = mapLookup rest k := by
  have hp : ¬((fun q : ReceiptId × TxHash => q.1 == k) p = true) := by simp [h]
  rw [mapLookup, List.find?_cons_of_neg rest hp]
  rfl

theorem mapLookup_remove_self (m : CorrelationMap) (k : ReceiptId) :
    mapLookup (mapRemove m k) k = none := by
  rw [mapLookup]
  have hf : (mapRemove m k).find? (fun p => p.1 == k) = none := by
    rw [List.find?_eq_none]
    intro p hp
    rw [mapRemove, List.mem_filter] at hp
    simpa using hp.2
  rw [hf]
  rfl

theorem mapLookup_remove_ne {k a : ReceiptId} (h : k ≠ a) :
    ∀ (m : CorrelationMap), mapLookup (mapRemove m a) k = mapLookup m k := by
  intro m
  induction m with
  | nil => rfl
  | cons p rest ih =>
    by_cases hpa : p.1 = a
    · have h1 : (p.1 != a) = false := by simp [hpa]
      rw [mapRemove, List.filter_cons, h1]
      simp only [Bool.false_eq_true, ite_false]
      rw [show List.filter (fun q => q.1 != a) rest = mapRemove rest a from rfl, ih,
        mapLookup_cons_neg rest (by rw [hpa]; exact Ne.symm h)]
    · have h1 : (p.1 != a) = true := bne_iff_ne.mpr hpa
      rw [mapRemove, List.filter_cons, h1]
      simp only [ite_true]
      by_cases hpk : p.1 = k
      · rw [mapLookup_cons_pos _ hpk, mapLookup_cons_pos _ hpk]
      · rw [mapLookup_cons_neg _ hpk, mapLookup_cons_neg _ hpk]
        exact ih

theorem mapLookup_insert_self (m : CorrelationMap) (k : ReceiptId) (v : TxHash) :
    mapLookup (mapInsert m k v) k = some v := by
  rw [mapInsert, mapLookup_cons_pos _ rfl]

theorem mapLookup_insert_ne {k a : ReceiptId} (h : k ≠ a) (m : CorrelationMap) (v : TxHash) :
    mapLookup (mapInsert m a v) k = mapLookup m k := by
  rw [mapInsert, mapLookup_cons_neg _ (Ne.symm h)]
  exact mapLookup_remove_ne h m

theorem filter_mapRemove (m : CorrelationMap) (a : ReceiptId) (h : TxHash) :
    (mapRemove m a).filter (fun p => p.2 == h) =
      (m.filter (fun p => p.2 == h)).filter (fun p => p.1 != a) := by
  rw [mapRemove, List.filter_filter, List.filter_filter]
  apply List.filter_congr
  intro x _
  exact Bool.and_comm _ _

theorem filter_single_val {m : CorrelationMap} {k : ReceiptId} {h : TxHash}
    (hf : m.filter (fun p => p.2 == h) = [(k, h)]) :
    ∀ x v, (x, v) ∈ m → v = h → x = k := by
  intro x v hm hv
  subst hv
  have hx : (x, v) ∈ m.filter (fun p => p.2 == v) := List.mem_filter.mpr ⟨hm, by simp⟩
  rw [hf] at hx
  simpa using List.mem_singleton.mp hx

theorem outcomeStep_untouched {h : TxHash} {k : ReceiptId} {fut : List ReceiptId}
    {m : CorrelationMap} {em : List (ExecutionOutcome × TxHash)} {o : ExecutionOutcome}
    (inv : ChainInv h k fut m) (hrid : o.receiptId ≠ k)
    (htar : ∀ t, o.status = ExecutionStatus.forwardTo t → t ≠ k ∧ t ∉ fut) :
    ChainInv h k fut (outcomeStep (m, em) o).1 ∧
    (outcomeStep (m, em) o).2.filter (fun p => p.2 == h) =
      em.filter (fun p => p.2 == h) := by
  obtain ⟨inv1, inv2, inv3⟩ := inv
  cases hl : mapLookup m o.receiptId with
  | none =>
    rw [outcomeStep_none m em o hl]
    exact ⟨⟨inv1, inv2, inv3⟩, rfl⟩
  | some tx =>
    have htx : tx ≠ h := by
      intro hc
      subst hc
      exact hrid (filter_single_val inv1 o.receiptId tx (mapLookup_mem hl) rfl)
    have hfilterR : (mapRemove m o.receiptId).filter (fun p => p.2 == h) = [(k, h)] := by
      rw [filter_mapRemove, inv1]
      have hne : (k != o.receiptId) = true := bne_iff_ne.mpr (Ne.symm hrid)
      simp [hne]
    have hlookR : mapLookup (mapRemove m o.receiptId) k = some h := by
      rw [mapLookup_remove_ne (Ne.symm hrid)]
      exact inv2
    have hfutR : ∀ r ∈ fut, mapLookup (mapRemove m o.receiptId) r = none := by
      intro r hr
      by_cases hro : r = o.receiptId
      · subst hro; exact mapLookup_remove_self m o.receiptId
      · rw [mapLookup_remove_ne hro]; exact inv3 r hr
    cases hst : o.status with
    | forwardTo t =>
      obtain ⟨htk, htf⟩ := htar t hst
      rw [outcomeStep_forward m em o tx t hl hst]
      refine ⟨⟨?_, ?_, ?_⟩, rfl⟩
      · rw [mapInsert, List.filter_cons]
        have hv : (((t, tx) : ReceiptId × TxHash).2 == h) = false := by simp [htx]
        rw [hv]
        simp only [Bool.false_eq_true, ite_false]
        rw [filter_mapRemove, hfilterR]
        have hne2 : (k != t) = true := bne_iff_ne.mpr (Ne.symm htk)
        simp [hne2]
      · rw [mapLookup_insert_ne (Ne.symm htk)]
        exact hlookR
      · intro r hr
        have hrt : r ≠ t := fun hc => htf (hc ▸ hr)
        rw [mapLookup_insert_ne hrt]
        exact hfutR r hr
    | finalValue v =>
      rw [outcomeStep_final m em o tx v hl hst]
      refine ⟨⟨hfilterR, hlookR, hfutR⟩, ?_⟩
      rw [List.filter_append]
      have hv : (((o, tx) : ExecutionOutcome × TxHash).2 == h) = false := by simp [htx]
      simp [hv]
    | failed =>
      rw [outcomeStep_failed m em o tx hl hst]
      exact ⟨⟨hfilterR, hlookR, hfutR⟩, rfl⟩

theorem foldl_untouched {h : TxHash} {k : ReceiptId} {fut : List ReceiptId} :
    ∀ (os : List ExecutionOutcome)
      (st : CorrelationMap × List (ExecutionOutcome × TxHash)),
      (∀ o ∈ os, o.receiptId ≠ k ∧
        ∀ t, o.status = ExecutionStatus.forwardTo t → t ≠ k ∧ t ∉ fut) →
      ChainInv h k fut st.1 →
      ChainInv h k fut (os.foldl outcomeStep st).1 ∧
      (os.foldl outcomeStep st).2.filter (fun p => p.2 == h) =
        st.2.filter (fun p => p.2 == h) := by
  intro os
  induction os with
  | nil => intro st _ inv; exact ⟨inv, rfl⟩
  | cons o os ih =>
    intro st hos inv
    have hstep : ChainInv h k fut (outcomeStep st o).1 ∧
        (outcomeStep st o).2.filter (fun p => p.2 == h) =
          st.2.filter (fun p => p.2 == h) :=
      outcomeStep_untouched inv (hos o (List.mem_cons_self o os)).1
        (hos o (List.mem_cons_self o os)).2
    have h2 := ih (outcomeStep st o)
      (fun o2 ho2 => hos o2 (List.mem_cons_of_mem o ho2)) hstep.1
    exact ⟨h2.1, h2.2.trans hstep.2⟩

theorem outcomeStep_notracked {h : TxHash} {m : CorrelationMap}
    {em : List (ExecutionOutcome × TxHash)} (o : ExecutionOutcome)
    (ht : NoTracked h m) :
    NoTracked h (outcomeStep (m, em) o).1 ∧
    (outcomeStep (m, em) o).2.filter (fun p => p.2 == h) =
      em.filter (fun p => p.2 == h) := by
  cases hl : mapLookup m o.receiptId with
  | none =>
    rw [outcomeStep_none m em o hl]
    exact ⟨ht, rfl⟩
  | some tx =>
    have htx : tx ≠ h := by
      intro hc
      subst hc
      have hx : (o.receiptId, tx) ∈ m.filter (fun p => p.2 == tx) :=
        List.mem_filter.mpr ⟨mapLookup_mem hl, by simp⟩
      rw [NoTracked] at ht
      rw [ht] at hx
      exact absurd hx (List.not_mem_nil _)
    have hfilterR : NoTracked h (mapRemove m o.receiptId) := by
      rw [NoTracked, filter_mapRemove, ht]
      rfl
    cases hst : o.status with
    | forwardTo t =>
      rw [outcomeStep_forward m em o tx t hl hst]
      refine ⟨?_, rfl⟩
      rw [NoTracked, mapInsert, List.filter_cons]
      have hv : (((t, tx) : ReceiptId × TxHash).2 == h) = false := by simp [htx]
      rw [hv]
      simp only [Bool.false_eq_true, ite_false]
      rw [filter_mapRemove, hfilterR]
      rfl
    | finalValue v =>
      rw [outcomeStep_final m em o tx v hl hst]
      refine ⟨hfilterR, ?_⟩
      rw [List.filter_append]
      have hv : (((o, tx) : ExecutionOutcome × TxHash).2 == h) = false := by simp [htx]
      simp [hv]
    | failed =>
      rw [outcomeStep_failed m em o tx hl hst]
      exact ⟨hfilterR, rfl⟩

theorem foldl_notracked {h : TxHash} :
    ∀ (os : List ExecutionOutcome)
      (st : CorrelationMap × List (ExecutionOutcome × TxHash)),
      NoTracked h st.1 →
      NoTracked h (os.foldl outcomeStep st).1 ∧
      (os.foldl outcomeStep st).2.filter (fun p => p.2 == h) =
        st.2.filter (fun p => p.2 == h) := by
  intro os
  induction os with
  | nil => intro st ht; exact ⟨ht, rfl⟩
  | cons o os ih =>
    intro st ht
    have hstep : NoTracked h (outcomeStep st o).1 ∧
        (outcomeStep st o).2.filter (fun p => p.2 == h) =
          st.2.filter (fun p => p.2 == h) :=
      outcomeStep_notracked o ht
    have h2 := ih (outcomeStep st o) hstep.1
    exact ⟨h2.1, h2.2.trans hstep.2⟩

theorem outcomeStep_chain_forward {h : TxHash} {k k2 : ReceiptId} {fut2 : List ReceiptId}
    {m : CorrelationMap} {em : List (ExecutionOutcome × TxHash)} {o : ExecutionOutcome}
    (inv : ChainInv h k (k2 :: fut2) m) (hrid : o.receiptId = k)
    (hst : o.status = ExecutionStatus.forwardTo k2)
    (hk2fut : k2 ∉ fut2) :
    ChainInv h k2 fut2 (outcomeStep (m, em) o).1 ∧ (outcomeStep (m, em) o).2 = em := by
  obtain ⟨inv1, inv2, inv3⟩ := inv
  have hl : mapLookup m o.receiptId = some h := by rw [hrid]; exact inv2
  rw [outcomeStep_forward m em o h k2 hl hst]
  refine ⟨⟨?_, ?_, ?_⟩, rfl⟩
  · rw [mapInsert, List.filter_cons]
    have hv : (((k2, h) : ReceiptId × TxHash).2 == h) = true := by simp
    rw [hv]
    simp only [ite_true]
    rw [filter_mapRemove, filter_mapRemove, inv1, hrid]
    simp
  · exact mapLookup_insert_self _ _ _
  · intro r hr
    have hrk2 : r ≠ k2 := fun hc => hk2fut (hc ▸ hr)
    rw [mapLookup_insert_ne hrk2]
    by_cases hro : r = o.receiptId
    · subst hro; exact mapLookup_remove_self m o.receiptId
    · rw [mapLookup_remove_ne hro]
      exact inv3 r (List.mem_cons_of_mem _ hr)

theorem outcomeStep_chain_final {h : TxHash} {k : ReceiptId} {fut : List ReceiptId}
    {m : CorrelationMap} {em : List (ExecutionOutcome × TxHash)} {o : ExecutionOutcome}
    {v : String} (inv : ChainInv h k fut m) (hrid : o.receiptId = k)
    (hst : o.status = ExecutionStatus.finalValue v) :
    NoTracked h (outcomeStep (m, em) o).1 ∧
    (outcomeStep (m, em) o).2 = em ++ [(o, h)] := by
  obtain ⟨inv1, inv2, _⟩ := inv
  have hl : mapLookup m o.receiptId = some h := by rw [hrid]; exact inv2
  rw [outcomeStep_final m em o h v hl hst]
  refine ⟨?_, rfl⟩
  rw [NoTracked, filter_mapRemove, inv1, hrid]
  simp

theorem mapInsert_chaininv {h : TxHash} {k : ReceiptId} {fut : List ReceiptId}
    {m : CorrelationMap} {a : ReceiptId} {v : TxHash}
    (inv : ChainInv h k fut m) (hv : v ≠ h) (hak : a ≠ k) (haf : a ∉ fut) :
    ChainInv h k fut (mapInsert m a v) := by
  obtain ⟨inv1, inv2, inv3⟩ := inv
  refine ⟨?_, ?_, ?_⟩
  · rw [mapInsert, List.filter_cons]
    have hvb : (((a, v) : ReceiptId × TxHash).2 == h) = false := by simp [hv]
    rw [hvb]
    simp only [Bool.false_eq_true, ite_false]
    rw [filter_mapRemove, inv1]
    have hka : (k != a) = true := bne_iff_ne.mpr (Ne.symm hak)
    simp [hka]
  · rw [mapLookup_insert_ne (Ne.symm hak)]
    exact inv2
  · intro r hr
    have hra : r ≠ a := fun hc => haf (hc ▸ hr)
    rw [mapLookup_insert_ne hra]
    exact inv3 r hr

theorem mapExtend_chaininv {h : TxHash} {k : ReceiptId} {fut : List ReceiptId} :
    ∀ (ps : List (ReceiptId × TxHash)) (m : CorrelationMap),
      (∀ p ∈ ps, p.2 ≠ h ∧ p.1 ∉ k :: fut) → ChainInv h k fut m →
      ChainInv h k fut (mapExtend m ps) := by
  intro ps
  induction ps with
  | nil => intro m _ inv; exact inv
  | cons p ps ih =>
    intro m hps inv
    have hp := hps p (List.mem_cons_self p ps)
    have hak : p.1 ≠ k := fun hc => hp.2 (hc ▸ List.mem_cons_self k fut)
    have haf : p.1 ∉ fut := fun hc => hp.2 (List.mem_cons_of_mem k hc)
    exact ih (mapInsert m p.1 p.2)
      (fun q hq => hps q (List.mem_cons_of_mem p hq))
      (mapInsert_chaininv inv hp.1 hak haf)

theorem othersOk_untouched {ks : List ReceiptId} {os : List ExecutionOutcome}
    (hothers : othersOk ks os) {k : ReceiptId} {fut : List ReceiptId}
    (hk : k ∈ ks) (hfut : ∀ r ∈ fut, r ∈ ks) :
    ∀ o ∈ os, o.receiptId ≠ k ∧
      ∀ t, o.status = ExecutionStatus.forwardTo t → t ≠ k ∧ t ∉ fut := by
  intro o ho
  obtain ⟨h1, h2⟩ := hothers o ho
  refine ⟨fun hc => h1 (hc ▸ hk), fun t ht => ?_⟩
  have h3 := h2 t ht
  exact ⟨fun hc => h3 (hc ▸ hk), fun hc => h3 (hfut t hc)⟩

theorem block_forward {w : List AccountId} {h : TxHash} {k k2 : ReceiptId}
    {fut2 : List ReceiptId} {b : StreamerMessage} {m : CorrelationMap}
    {pre post : List ExecutionOutcome} {o : ExecutionOutcome}
    (hseed : seedOk w h (k :: k2 :: fut2) b)
    (hout : blockOutcomes b = pre ++ o :: post)
    (hrid : o.receiptId = k) (hst : o.status = ExecutionStatus.forwardTo k2)
    (hothers : othersOk (k :: k2 :: fut2) (pre ++ post))
    (hk2fut : k2 ∉ fut2)
    (inv : ChainInv h k (k2 :: fut2) m) :
    ChainInv h k2 fut2 (filter_outcomes b (mapExtend m (collect_transactions b w))).1 ∧
    (filter_outcomes b (mapExtend m (collect_transactions b w))).2.filter
      (fun p => p.2 == h) = [] := by
  have hm1 : ChainInv h k (k2 :: fut2) (mapExtend m (collect_transactions b w)) :=
    mapExtend_chaininv _ m hseed inv
  rw [filter_outcomes, hout, List.foldl_append, List.foldl_cons]
  have hpreH := othersOk_untouched hothers (List.mem_cons_self k _)
    (fun r hr => List.mem_cons_of_mem k hr)
  have hA : ChainInv h k (k2 :: fut2)
        (pre.foldl outcomeStep (mapExtend m (collect_transactions b w), [])).1 ∧
      (pre.foldl outcomeStep (mapExtend m (collect_transactions b w), [])).2.filter
        (fun p => p.2 == h) =
      (([] : List (ExecutionOutcome × TxHash)).filter (fun p => p.2 == h)) :=
    foldl_untouched pre (mapExtend m (collect_transactions b w), [])
      (fun o2 ho2 => hpreH o2 (List.mem_append_left _ ho2)) hm1
  have hB : ChainInv h k2 fut2
        (outcomeStep (pre.foldl outcomeStep
          (mapExtend m (collect_transactions b w), [])) o).1 ∧
      (outcomeStep (pre.foldl outcomeStep
        (mapExtend m (collect_transactions b w), [])) o).2 =
      (pre.foldl outcomeStep (mapExtend m (collect_transactions b w), [])).2 :=
    outcomeStep_chain_forward hA.1 hrid hst hk2fut
  have hpostH : ∀ o2 ∈ post, o2.receiptId ≠ k2 ∧
      ∀ t, o2.status = ExecutionStatus.forwardTo t → t ≠ k2 ∧ t ∉ fut2 := by
    intro o2 ho2
    obtain ⟨h1, h2⟩ := hothers o2 (List.mem_append_right _ ho2)
    refine ⟨fun hc => h1 ?_, fun t ht => ?_⟩
    · rw [hc]
      exact List.mem_cons_of_mem k (List.mem_cons_self k2 fut2)
    · have h3 := h2 t ht
      refine ⟨fun hc => h3 ?_, fun hc => h3 ?_⟩
      · rw [hc]
        exact List.mem_cons_of_mem k (List.mem_cons_self k2 fut2)
      · exact List.mem_cons_of_mem k (List.mem_cons_of_mem k2 hc)
  have hC := foldl_untouched post
    (outcomeStep (pre.foldl outcomeStep (mapExtend m (collect_transactions b w), [])) o)
    hpostH hB.1
  refine ⟨hC.1, ?_⟩
  rw [hC.2, hB.2, hA.2]
  rfl

theorem block_final {w : List AccountId} {h : TxHash} {k : ReceiptId}
    {b : StreamerMessage} {m : CorrelationMap}
    {pre post : List ExecutionOutcome} {o : ExecutionOutcome} {v : String}
    (hseed : seedOk w h [k] b)
    (hout : blockOutcomes b = pre ++ o :: post)
    (hrid : o.receiptId = k) (hst : o.status = ExecutionStatus.finalValue v)
    (hothers : othersOk [k] (pre ++ post))
    (inv : ChainInv h k [] m) :
    (filter_outcomes b (mapExtend m (collect_transactions b w))).2.filter
      (fun p => p.2 == h) = [(o, h)] := by
  have hm1 : ChainInv h k [] (mapExtend m (collect_transactions b w)) :=
    mapExtend_chaininv _ m hseed inv
  rw [filter_outcomes, hout, List.foldl_append, List.foldl_cons]
  have hpreH := othersOk_untouched hothers (List.mem_cons_self k [])
    (fun r hr => absurd hr (List.not_mem_nil r))
  have hA : ChainInv h k []
        (pre.foldl outcomeStep (mapExtend m (collect_transactions b w), [])).1 ∧
      (pre.foldl outcomeStep (mapExtend m (collect_transactions b w), [])).2.filter
        (fun p => p.2 == h) =
      (([] : List (ExecutionOutcome × TxHash)).filter (fun p => p.2 == h)) :=
    foldl_untouched pre (mapExtend m (collect_transactions b w), [])
      (fun o2 ho2 => hpreH o2 (List.mem_append_left _ ho2)) hm1
  have hB : NoTracked h
        (outcomeStep (pre.foldl outcomeStep
          (mapExtend m (collect_transactions b w), [])) o).1 ∧
      (outcomeStep (pre.foldl outcomeStep
        (mapExtend m (collect_transactions b w), [])) o).2 =
      (pre.foldl outcomeStep (mapExtend m (collect_transactions b w), [])).2 ++ [(o, h)] :=
    outcomeStep_chain_final hA.1 hrid hst
  have hC := foldl_notracked post
    (outcomeStep (pre.foldl outcomeStep (mapExtend m (collect_transactions b w), [])) o)
    hB.1
  rw [hC.2, hB.2, List.filter_append, hA.2]
  simp

theorem chain_run {w : List AccountId} {h : TxHash} :
    ∀ (fut : List ReceiptId) (k : ReceiptId) (bs : List StreamerMessage)
      (m : CorrelationMap),
      (k :: fut).Nodup → ChainFits w h (k :: fut) bs → ChainInv h k fut m →
      (∀ em ∈ (pipeEmits w m bs).dropLast, em.filter (fun p => p.2 == h) = []) ∧
      ∃ em o, (pipeEmits w m bs).getLast? = some em ∧
        em.filter (fun p => p.2 == h) = [(o, h)] ∧
        (∃ v, o.status = ExecutionStatus.finalValue v) ∧
        o.receiptId = (k :: fut).getLast (List.cons_ne_nil k fut) := by
  intro fut
  induction fut with
  | nil =>
    intro k bs m hnd hfits inv
    cases bs with
    | nil => exact hfits.elim
    | cons b bs2 =>
      cases bs2 with
      | cons b2 bs3 => exact hfits.elim
      | nil =>
        have hfits2 : seedOk w h [k] b ∧
            ∃ pre o post v, blockOutcomes b = pre ++ o :: post ∧
              o.receiptId = k ∧ o.status = ExecutionStatus.finalValue v ∧
              othersOk [k] (pre ++ post) := hfits
        obtain ⟨hseed, pre, o, post, v, hout, hrid, hst, hothers⟩ := hfits2
        constructor
        · intro em hem
          have hp : pipeEmits w m [b] =
              [(filter_outcomes b (mapExtend m (collect_transactions b w))).2] := rfl
          rw [hp, List.dropLast_single] at hem
          exact absurd hem (List.not_mem_nil em)
        · refine ⟨(filter_outcomes b (mapExtend m (collect_transactions b w))).2, o,
            rfl, ?_, ⟨v, hst⟩, ?_⟩
          · exact block_final hseed hout hrid hst hothers inv
          · rw [hrid, List.getLast_singleton]
  | cons k2 fut2 ih =>
    intro k bs m hnd hfits inv
    cases bs with
    | nil => exact hfits.elim
    | cons b bs2 =>
      have hfits2 : seedOk w h (k :: k2 :: fut2) b ∧
          (∃ pre o post, blockOutcomes b = pre ++ o :: post ∧ o.receiptId = k ∧
            o.status = ExecutionStatus.forwardTo k2 ∧
            othersOk (k :: k2 :: fut2) (pre ++ post)) ∧
          ChainFits w h (k2 :: fut2) bs2 := hfits
      obtain ⟨hseed, ⟨pre, o, post, hout, hrid, hst, hothers⟩, hrest⟩ := hfits2
      have hnd2 : (k2 :: fut2).Nodup := (List.nodup_cons.mp hnd).2
      have hk2fut : k2 ∉ fut2 := (List.nodup_cons.mp hnd2).1
      have hblk := block_forward hseed hout hrid hst hothers hk2fut inv
      have hih := ih k2 bs2
        (filter_outcomes b (mapExtend m (collect_transactions b w))).1 hnd2 hrest hblk.1
      obtain ⟨hdrop, em0, o0, hlast, hfil, hvex, hr0⟩ := hih
      have hpipe : pipeEmits w m (b :: bs2) =
          (filter_outcomes b (mapExtend m (collect_transactions b w))).2 ::
          pipeEmits w (filter_outcomes b (mapExtend m (collect_transactions b w))).1 bs2 :=
        rfl
      have hne : pipeEmits w
          (filter_outcomes b (mapExtend m (collect_transactions b w))).1 bs2 ≠ [] := by
        intro hnil
        rw [hnil] at hlast
        simp at hlast
      constructor
      · intro em hem
        rw [hpipe, List.dropLast_cons_of_ne_nil hne] at hem
        rcases List.mem_cons.mp hem with rfl | hem2
        · exact hblk.2
        · exact hdrop em hem2
      · refine ⟨em0, o0, ?_, hfil, hvex, ?_⟩
        · rw [hpipe]
          cases hl2 : pipeEmits w
              (filter_outcomes b (mapExtend m (collect_transactions b w))).1 bs2 with
          | nil => exact absurd hl2 hne
          | cons x xs =>
            rw [List.getLast?_cons_cons]
            rw [hl2] at hlast
            exact hlast
        · rw [hr0, List.getLast_cons (List.cons_ne_nil k2 fut2)]

theorem foldl_emissions_final :
    ∀ (os : List ExecutionOutcome)
      (st : CorrelationMap × List (ExecutionOutcome × TxHash)),
      (∀ pr ∈ st.2, ∃ v, pr.1.status = ExecutionStatus.finalValue v) →
      ∀ pr ∈ (os.foldl outcomeStep st).2, ∃ v, pr.1.status = ExecutionStatus.finalValue v := by
  intro os
  induction os with
  | nil => intro st hst pr hpr; exact hst pr hpr
  | cons o os ih =>
    intro st hst pr hpr
    refine ih (outcomeStep st o) ?_ pr hpr
    intro q hq
    cases hl : mapLookup st.1 o.receiptId with
    | none =>
      have he : outcomeStep st o = (st.1, st.2) := outcomeStep_none st.1 st.2 o hl
      rw [he] at hq
      exact hst q hq
    | some tx =>
      cases hso : o.status with
      | forwardTo t =>
        have he := outcomeStep_forward st.1 st.2 o tx t hl hso
        rw [he] at hq
        exact hst q hq
      | finalValue v =>
        have he := outcomeStep_final st.1 st.2 o tx v hl hso
        rw [he] at hq
        simp only at hq
        rcases List.mem_append.mp hq with hq1 | hq2
        · exact hst q hq1
        · rw [List.mem_singleton] at hq2
          subst hq2
          exact ⟨v, hso⟩
      | failed =>
        have he := outcomeStep_failed st.1 st.2 o tx hl hso
        rw [he] at hq
        exact hst q hq

/-- C3: a transaction tracked in the Correlation Map whose execution spans N
blocks through a chain of `ForwardTo` outcomes ending in a `FinalValue`
produces exactly one terminal emission: none of the first N-1 blocks emits a
pair for its hash, the Nth block emits exactly one — carried by the chain's
final receipt — and, in any block whatsoever, only `FinalValue` outcomes are
ever emitted, so a `ForwardTo` outcome alone never causes an emission in its
own block. -/
theorem forward_chain_one_emission (w : List AccountId) (h : TxHash)
    (k : ReceiptId) (fut : List ReceiptId) (bs : List StreamerMessage)
    (m : CorrelationMap) (hnd : (k :: fut).Nodup)
    (hfits : ChainFits w h (k :: fut) bs) (hinv : ChainInv h k fut m) :
    ((∀ em ∈ (pipeEmits w m bs).dropLast, em.filter (fun p => p.2 == h) = []) ∧
      ∃ em o, (pipeEmits w m bs).getLast? = some em ∧
        em.filter (fun p => p.2 == h) = [(o, h)] ∧
        (∃ v, o.status = ExecutionStatus.finalValue v) ∧
        o.receiptId = (k :: fut).getLast (List.cons_ne_nil k fut)) ∧
    ∀ (m2 : CorrelationMap) (msg : StreamerMessage)
      (pr : ExecutionOutcome × TxHash), pr ∈ (filter_outcomes msg m2).2 →
        ∃ v, pr.1.status = ExecutionStatus.finalValue v := by
  refine ⟨chain_run fut k bs m hnd hfits hinv, ?_⟩
  intro m2 msg pr hpr
  exact foldl_emissions_final (blockOutcomes msg) (m2, [])
    (fun q hq => absurd hq (List.not_mem_nil q)) pr hpr

/-- Witness for C3: the two-block chain `R1 -> R2 -> FinalValue` for
transaction `T1` emits nothing in the first block and exactly one pair in the
second. -/
theorem forward_chain_one_emission_witness :
    ((∀ em ∈ (pipeEmits ["alice.test"] [("R1", "T1")] [chainMsg1, chainMsg2]).dropLast,
        em.filter (fun p => p.2 == "T1") = []) ∧
      ∃ em o,
        (pipeEmits ["alice.test"] [("R1", "T1")] [chainMsg1, chainMsg2]).getLast? =
          some em ∧
        em.filter (fun p => p.2 == "T1") = [(o, "T1")] ∧
        (∃ v, o.status = ExecutionStatus.finalValue v) ∧
        o.receiptId =
          (["R1", "R2"] : List ReceiptId).getLast (List.cons_ne_nil "R1" ["R2"])) ∧
    ∀ (m2 : CorrelationMap) (msg : StreamerMessage) (pr : ExecutionOutcome × TxHash),
      pr ∈ (filter_outcomes msg m2).2 →
        ∃ v, pr.1.status = ExecutionStatus.finalValue v :=
  forward_chain_one_emission ["alice.test"] "T1" "R1" ["R2"] [chainMsg1, chainMsg2]
    [("R1", "T1")] (by decide)
    ⟨fun p hp => absurd hp (List.not_mem_nil p),
      ⟨[], ExecutionOutcome.mk "R1" (ExecutionStatus.forwardTo "R2")
          (Receipt.mk "alice.test" []), [],
        rfl, rfl, rfl, fun o2 ho2 => absurd ho2 (List.not_mem_nil o2)⟩,
      fun p hp => absurd hp (List.not_mem_nil p),
      ⟨[], chainOutc2, [], "ok", rfl, rfl, rfl,
        fun o2 ho2 => absurd ho2 (List.not_mem_nil o2)⟩⟩
    ⟨rfl, rfl, by decide⟩

end Horizon
